import Mathlib

/-!
Verification of the DMM-GAPBS distributed graph-analytics engine.

This development gives a shallow embedding of the core data structures and
kernels of the repository (sliding queue / queue buffer, squish pipeline,
direction-optimizing BFS, delta-stepping SSSP, ordered triangle counting)
and proves or refutes the specification's claims about them.

Conventions:
* machine integers are modelled as `Nat` / `Int` (the code never relies on
  wrap-around in the verified regions);
* one-sided SHMEM operations are modelled as explicit state passing; where
  a kernel is SPMD-symmetric and a claim is about the value it returns, the
  single-rank (`npes = 1`) instance of the code is embedded, in which
  `shmem_getmem`/`shmem_putmem`/atomics collapse to local array reads and
  writes and barriers are no-ops;
* uninitialized memory returned by `shmem_malloc` is modelled by an explicit
  `junk` parameter.

The file is organized as: all definitions first, then all theorems.
-/

/-! ## Definitions -/

/-! ### SHMEM_TDStep owner arithmetic (src/bfs.cc lines 114, 151-157)

`SHMEM_TDStep` locates the owner rank of a remote neighbour `v` with
`parent_offset = num_nodes / npes`, `foreign_pe = v / parent_offset` clamped
to `npes - 1`, and a local index that is `v - parent_offset*foreign_pe` in
the clamped case and `v % parent_offset` otherwise.  All quantities involved
are non-negative ints; they are embedded as `Nat`. -/

/-- `parent_offset = g.num_nodes() / npes` (src/bfs.cc line 114). -/
def tdParentOffset (numNodes npes : Nat) : Nat := numNodes / npes

/-- `foreign_pe = v / parent_offset`, clamped to `npes-1` when it is `≥ npes`
(src/bfs.cc lines 151-153). -/
def tdForeignPe (numNodes npes v : Nat) : Nat :=
  if v / tdParentOffset numNodes npes ≥ npes then npes - 1
  else v / tdParentOffset numNodes npes

/-- The local index used for the remote access: `v - parent_offset*foreign_pe`
in the clamped case, else `v % parent_offset` (src/bfs.cc lines 154-156). -/
def tdLocalV (numNodes npes v : Nat) : Nat :=
  if v / tdParentOffset numNodes npes ≥ npes then
    v - tdParentOffset numNodes npes * (npes - 1)
  else v % tdParentOffset numNodes npes

/-- `lower_bound = parent_offset * pe` (src/bfs.cc line 116). -/
def tdLowerBound (numNodes npes p : Nat) : Nat := tdParentOffset numNodes npes * p

/-- `upper_bound`: `num_nodes` on the tail rank, else `lower_bound +
parent_offset` (src/bfs.cc lines 122-128). -/
def tdUpperBound (numNodes npes p : Nat) : Nat :=
  if p = npes - 1 then numNodes else tdLowerBound numNodes npes p + tdParentOffset numNodes npes

/-! ### SquishCSR (src/src/builder.h lines 168-207)

Per vertex `n`, `SquishCSR` runs `std::sort` on the neighbour run, removes
consecutive duplicates with `std::unique`, and removes self-loops with
`std::remove(.., n)`; the surviving items (in order) become the vertex's
neighbour list of the squished CSR.  The per-vertex transformation is
embedded on `List Int` and applied to every vertex of the CSR. -/

/-- `std::sort(n_start, n_end)` (src/src/builder.h line 182). -/
def squishSort (l : List Int) : List Int := l.mergeSort (fun a b => decide (a ≤ b))

/-- `std::unique(n_start, n_end)`: keeps the first element of every run of
consecutive equal elements (src/src/builder.h line 183). -/
def squishUnique : List Int → List Int
  | [] => []
  | [a] => [a]
  | a :: b :: t => if a = b then squishUnique (a :: t) else a :: squishUnique (b :: t)
termination_by l => l.length

/-- `std::remove(n_start, new_end, n)`: drops every occurrence of the vertex's
own id `n`, keeping the order of the rest (src/src/builder.h line 184). -/
def squishRemoveSelf (n : Int) (l : List Int) : List Int := l.filter (fun x => x ≠ n)

/-- The squished neighbour run of vertex `n` (src/src/builder.h lines 173-186
compute it; lines 198-205 copy exactly these `diffs[indx]` items into the
squished CSR). -/
def squish (n : Int) (l : List Int) : List Int := squishRemoveSelf n (squishUnique (squishSort l))

/-- The squished CSR: vertex `i`'s neighbour list is the squished run of its
original list (src/src/builder.h `SquishCSR`, over all ranks' slices). -/
def squishCSR (lists : List (List Int)) : List (List Int) :=
  lists.mapIdx (fun i l => squish (Int.ofNat i) l)

/-! ### SlidingQueue / QueueBuffer::flush (src/sliding_queue.h lines 111-125)

The sliding queue is a symmetric object: every rank holds a backing array
`shared` and the cursor `shared_in`.  `flush()` is serialized globally by the
queue lock, so its body is embedded as one atomic state transformation on the
vector of all ranks' copies.  The body performs, in order:
`copy_start = shmem_ulong_atomic_fetch_add(&sq.shared_in, in, pe)` (on the
*calling* rank `pe`), `copy_end = copy_start + local_size`,
`std::copy(local_queue, local_queue+in, shared_queue+copy_start)` locally,
then for every other rank `i`: `shmem_put64(shared_queue+copy_start,
local_queue, local_size, i)` and `shmem_ulong_put(&sq.shared_in, &copy_end,
1, i)`. -/

/-- One rank's copy of the symmetric sliding-queue state. -/
structure QueueRank where
  shared : List Int
  sharedIn : Nat
deriving DecidableEq, Repr

/-- Overwrite `l` starting at index `start` with the items of `xs`. -/
def writeRange {α : Type} (l : List α) (start : Nat) (xs : List α) : List α :=
  l.take start ++ xs ++ l.drop (start + xs.length)

/-- `QueueBuffer::flush` by rank `pe` whose local buffer array holds
`localQueue` (all `local_size` slots, staged items first) of which the first
`inCount` are staged (src/sliding_queue.h lines 111-125).  The global queue
lock makes the whole body atomic, so it is one transformation of the vector
of all ranks' queue copies. -/
def queueFlush (st : List QueueRank) (pe : Nat) (localQueue : List Int) (inCount : Nat) :
    List QueueRank :=
  let copyStart := (st.getD pe ⟨[], 0⟩).sharedIn
  st.mapIdx (fun i q =>
    if i = pe then
      { shared := writeRange q.shared copyStart (localQueue.take inCount),
        sharedIn := copyStart + inCount }
    else
      { shared := writeRange q.shared copyStart localQueue,
        sharedIn := copyStart + localQueue.length })

/-- The empty two-rank queue state with capacity 4 (as after collective
construction: `shmem_calloc` zeroes the backing array, `reset()` zeroes the
cursors). -/
def queueState0 : List QueueRank := [⟨[0, 0, 0, 0], 0⟩, ⟨[0, 0, 0, 0], 0⟩]


/-! ### Graphs

The CSR graph is embedded by its access functions: `outNeigh u` is the list
of out-neighbours `g.out_neigh(u)` in storage order and `inNeigh u` the list
of in-neighbours `g.in_neigh(u)`.  For an undirected (symmetrized) graph the
two coincide. -/

/-- Unweighted CSR graph (src/src/graph.h interface used by bfs.cc/tc.cc). -/
structure SGraph where
  numNodes : Nat
  outNeigh : Nat → List Nat
  inNeigh : Nat → List Nat

/-- `g.out_degree(u)`. -/
def SGraph.outDegree (g : SGraph) (u : Nat) : Nat := (g.outNeigh u).length

/-- Weighted CSR graph: `outNeighW u` lists the `WNode` pairs `(v, w)` of
`g.out_neigh(u)` (src/src/sssp.cc).  Weights are the non-negative ints of the
claims, embedded as `Nat`. -/
structure WSGraph where
  numNodes : Nat
  outNeighW : Nat → List (Nat × Nat)

/-- The undirected path `0 - 1 - 2`. -/
def pathGraph3 : SGraph :=
  { numNodes := 3
    outNeigh := fun u => [[1], [0, 2], [1]].getD u []
    inNeigh := fun u => [[1], [0, 2], [1]].getD u [] }

/-- The directed edge `0 → 1` on two nodes. -/
def edgeGraph2 : SGraph :=
  { numNodes := 2
    outNeigh := fun u => [[1], []].getD u []
    inNeigh := fun u => [[], [0]].getD u [] }

/-- A one-node weighted graph with no edges. -/
def wGraph1 : WSGraph := { numNodes := 1, outNeighW := fun _ => [] }

/-! ### Verifiers (src/bfs.cc lines 340-386, src/src/sssp.cc lines 205-220,
src/src/tc.cc lines 126-135) -/

/-- One step of the serial reference BFS inside `BFSVerifier`: expand vertex
`u`, setting `depth[v] = depth[u] + 1` for every unvisited out-neighbour and
appending it to `to_visit` (src/bfs.cc lines 347-355). -/
def bfsVerifierExpand (g : SGraph) (u : Nat) (acc : List Int × List Nat) :
    List Int × List Nat :=
  (g.outNeigh u).foldl
    (fun (st : List Int × List Nat) v =>
      if st.1.getD v 0 = -1 then (st.1.set v (st.1.getD u 0 + 1), st.2 ++ [v]) else st)
    acc

/-- The serial reference BFS worklist loop of `BFSVerifier` (src/bfs.cc lines
344-355); `to_visit` is consumed front to back while appends go to the back.
The loop makes at most one step per enqueued vertex, so any fuel beyond the
total number of enqueues (at most `num_nodes`) is equivalent. -/
def bfsVerifierLoop (g : SGraph) : Nat → List Int → List Nat → List Int
  | 0, depth, _ => depth
  | _ + 1, depth, [] => depth
  | fuel + 1, depth, u :: rest =>
    let st := bfsVerifierExpand g u (depth, [])
    bfsVerifierLoop g fuel st.1 (rest ++ st.2)

/-- `BFSVerifier` (src/bfs.cc lines 340-386): serial BFS from `source`, then
per-vertex checks; prints a warning and returns `false` on the first
mismatch, `true` when all checks pass. -/
def bfsVerifier (g : SGraph) (source : Nat) (parent : List Int) : Bool :=
  let depth0 := (List.replicate g.numNodes (-1 : Int)).set source 0
  let depth := bfsVerifierLoop g (g.numNodes + 1) depth0 [source]
  (List.range g.numNodes).all (fun u =>
    if depth.getD u (-1) ≠ -1 ∧ parent.getD u (-1) ≠ -1 then
      if u = source then decide (parent.getD u (-1) = (u : Int) ∧ depth.getD u (-1) = 0)
      else
        match (g.inNeigh u).find? (fun (v : Nat) => decide ((v : Int) = parent.getD u (-1))) with
        | none => false
        | some v => decide (depth.getD v (-1) = depth.getD u (-1) - 1)
    else decide (depth.getD u (-1) = parent.getD u (-1)))

/-- `SSSPVerifier` (src/src/sssp.cc lines 205-220): the body only serializes
the ranks via the `PRINTER` `wait_until`/`put` chain and appends the local
slice of `dist_to_test` to `sssp_output.txt`; it performs no comparison and
unconditionally returns `true`. -/
def ssspVerifier (_g : WSGraph) (_source : Nat) (_distToTest : List Nat) : Bool := true

/-- `TCVerifier` (src/src/tc.cc lines 126-135): rank 0 prints `test_total`
and appends it to `tc_output.txt`; no comparison is performed and the
function unconditionally returns `true`. -/
def tcVerifier (_g : SGraph) (_testTotal : Nat) : Bool := true

/-- Edge test `v ∈ g.out_neigh(u)` (reference side). -/
def hasEdge (g : SGraph) (u v : Nat) : Bool := decide (v ∈ g.outNeigh u)

/-- Reference brute-force triangle count: the number of vertex triples
`a < b < c` that are pairwise adjacent. -/
def bruteTriangles (g : SGraph) : Nat :=
  ((List.range g.numNodes).map (fun c =>
    ((List.range c).map (fun b =>
      ((List.range b).filter (fun a =>
        hasEdge g a b && hasEdge g b c && hasEdge g a c)).length)).sum)).sum

/-! ### SHMEM_BUStep (src/bfs.cc lines 50-82), single-rank instance

With `npes = 1` the scanned range is `[0, num_nodes)` and the
`sum_to_all` reduction is over one rank.  The statement
`awake_count++` at src/bfs.cc line 72 increments the *pointer*
`awake_count`, not the pointed-to counter, and the `shmem_malloc`-returned
long long is never initialized; the value the function reduces and returns
is therefore unrelated uninitialized memory, modelled by the explicit
parameter `junk`. -/

/-- `SHMEM_BUStep` at `npes = 1`: returns the updated parent array, the
`next` bitmap (reset, then filled), and the returned awake count, which per
the pointer-increment slip is just the uninitialized allocation content
`junk`.  For each `u` with `parent[u] < 0` the first in-neighbour `v` with
`front.get_bit(v)` is taken as parent and `next.set_bit(u)` is applied. -/
def shmemBUStep (g : SGraph) (parent : List Int) (front : List Bool) (junk : Int) :
    List Int × List Bool × Int :=
  let st := (List.range g.numNodes).foldl
    (fun (st : List Int × List Bool) u =>
      if st.1.getD u 0 < 0 then
        match (g.inNeigh u).find? (fun v => front.getD v false) with
        | some v => (st.1.set u (v : Int), st.2.set u true)
        | none => st
      else st)
    (parent, List.replicate g.numNodes false)
  (st.1, st.2, junk)


/-! ### Partition (modelled from the spec) and OrderedCount
(src/src/tc.cc lines 54-76) -/

/-- Modelled from the spec: the repository's `Partition` helper (its header is
not under src/; only callers are).  Spec section 3: `partition_width = n / N`
(floor). -/
def specPartWidth (n N : Nat) : Nat := n / N

/-- Modelled from the spec: `start(p) = p * partition_width` (spec section 3). -/
def specPartStart (n N p : Nat) : Nat := specPartWidth n N * p

/-- Modelled from the spec: `end(p) = start(p) + partition_width` for
`p < N-1`, else `n` (spec section 3). -/
def specPartEnd (n N p : Nat) : Nat :=
  if p = N - 1 then n else specPartStart n N p + specPartWidth n N

/-- The `while (*it < w) it++; if (w == *it) total++;` walk of `OrderedCount`
(src/src/tc.cc lines 65-70): advance the iterator over `out_neigh(u)` to the
first element `≥ w`, report whether it equals `w`, and keep the iterator
position for the next `w`.  (The empty case cannot occur under the kernel's
preconditions: the stopper `v ≥ w` is still ahead of the iterator.) -/
def tcScan (it : List Nat) (w : Nat) : Bool × List Nat :=
  match it with
  | [] => (false, [])
  | x :: rest => if x < w then tcScan rest w else (decide (w = x), x :: rest)

/-- The `for (NodeID w : g.out_neigh(v))` loop of `OrderedCount`
(src/src/tc.cc lines 62-71): stop at the first `w > v`, otherwise run the
iterator walk and count the hits, threading the iterator. -/
def tcInner (wlist : List Nat) (v : Nat) (it : List Nat) : Nat :=
  match wlist with
  | [] => 0
  | w :: rest =>
    if w > v then 0
    else
      let s := tcScan it w
      (if s.1 then 1 else 0) + tcInner rest v s.2

/-- The `for (NodeID v : g.out_neigh(u))` loop of `OrderedCount`
(src/src/tc.cc lines 58-72): stop at the first `v > u`; the iterator is
re-initialized to `g.out_neigh(u).begin()` for each `v`. -/
def tcMiddle (g : SGraph) (u : Nat) (vlist : List Nat) : Nat :=
  match vlist with
  | [] => 0
  | v :: rest =>
    if v > u then 0
    else tcInner (g.outNeigh v) v (g.outNeigh u) + tcMiddle g u rest

/-- One rank's contribution to `OrderedCount`: the loop
`for (NodeID u = vp.start; u < vp.end; u++)` (src/src/tc.cc line 57). -/
def orderedCountLocal (g : SGraph) (lo hi : Nat) : Nat :=
  ((List.range' lo (hi - lo)).map (fun u => tcMiddle g u (g.outNeigh u))).sum

/-- `OrderedCount` (src/src/tc.cc lines 54-76): every rank counts over its
partition slice and the counts are `sum_to_all`-reduced. -/
def orderedCount (g : SGraph) (npes : Nat) : Nat :=
  ((List.range npes).map (fun p =>
    orderedCountLocal g (specPartStart g.numNodes npes p)
      (specPartEnd g.numNodes npes p))).sum

/-- The triangle `K_3` on `{0, 1, 2}`, undirected and squished. -/
def triangleK3 : SGraph :=
  { numNodes := 3
    outNeigh := fun u => [[1, 2], [0, 2], [0, 1]].getD u []
    inNeigh := fun u => [[1, 2], [0, 2], [0, 1]].getD u [] }


/-! ### DOBFS (src/bfs.cc lines 257-318), single-rank instance

The direction-optimizing BFS is SPMD; its functional content — the parent
array the kernel returns — is embedded at `npes = 1`, where the partition
bounds of `SHMEM_TDStep`, `BitmapToQueue` and `InitParent` collapse to
`[0, num_nodes)`, remote accesses are local, and every reduction is over a
single rank.  The sliding queue only ever appends at `shared_in`, so its
backing array is modelled as a growing list with the two window cursors.
`shmem_malloc`ed counters that the code never initializes are modelled by
explicit `junk` parameters. -/

/-- `SlidingQueue<NodeID>` (src/sliding_queue.h lines 29-79): backing array
plus the promoted window `[out_start, out_end)`; `shared_in` is the length of
`shared`. -/
structure SQueue where
  shared : List Nat
  outStart : Nat
  outEnd : Nat
deriving DecidableEq, Repr

/-- `SlidingQueue::push_back` (writes at `shared_in++`). -/
def sqPush (q : SQueue) (x : Nat) : SQueue := { q with shared := q.shared ++ [x] }

/-- `SlidingQueue::slide_window`. -/
def sqSlide (q : SQueue) : SQueue := { q with outStart := q.outEnd, outEnd := q.shared.length }

/-- The iteration window `[out_start, out_end)`. -/
def sqWindow (q : SQueue) : List Nat := (q.shared.drop q.outStart).take (q.outEnd - q.outStart)

/-- `SlidingQueue::empty`. -/
def sqEmpty (q : SQueue) : Bool := decide (q.outStart = q.outEnd)

/-- `SlidingQueue::size`. -/
def sqSize (q : SQueue) : Nat := q.outEnd - q.outStart

/-- `QueueBuffer::flush` at `npes = 1`: the `fetch_add` reserves
`[shared_in, shared_in + in)` on the only rank and the staged items are
copied there in order; the remote-put loop is empty. -/
def qbFlush (q : SQueue) (buf : List Nat) : SQueue × List Nat :=
  ({ q with shared := q.shared ++ buf }, [])

/-- `QueueBuffer::push_back` (src/sliding_queue.h lines 105-109): flush first
when the staging buffer is full. -/
def qbPush (q : SQueue) (buf : List Nat) (localSize : Nat) (x : Nat) : SQueue × List Nat :=
  if buf.length = localSize then
    let fl := qbFlush q buf
    (fl.1, fl.2 ++ [x])
  else (q, buf ++ [x])

/-- `g.num_edges_directed()`: the number of stored directed edges. -/
def SGraph.numEdgesDirected (g : SGraph) : Nat :=
  ((List.range g.numNodes).map g.outDegree).sum

/-- `InitParent` (src/bfs.cc lines 236-255) at `npes = 1`:
`parent[n] = out_degree(n) != 0 ? -out_degree(n) : -1`, then
`parent[source] = source` under the guard `source >= start && source <= end`
(at one rank: `0 ≤ source ≤ num_nodes`). -/
def initParent (g : SGraph) (source : Nat) : List Int :=
  let base := (List.range g.numNodes).map
    (fun u => if g.outDegree u ≠ 0 then -(g.outDegree u : Int) else -1)
  if source ≤ g.numNodes then base.set source (source : Int) else base

/-- The mutable state threaded through `SHMEM_TDStep`'s scan. -/
structure TDState where
  parent : List Int
  q : SQueue
  buf : List Nat
  scout : Int

/-- Processing the out-edges of one frontier vertex `u` in `SHMEM_TDStep`
(src/bfs.cc lines 138-168) at `npes = 1`: every neighbour is locally owned
(`lower_bound = 0`, `upper_bound = num_nodes`), the sequential
compare-and-swap always swaps and returns the old (negative, hence nonzero)
value, so when `parent[v] < 0` the code sets `parent[v] = u`, buffers `v`,
and adds `-curr_val` to the local scout.  (The remote branch performs the
same get / swap-if-negative / buffer / scout updates on the single rank.) -/
def tdProcessVertex (g : SGraph) (localSize : Nat) (st : TDState) (u : Nat) : TDState :=
  (g.outNeigh u).foldl
    (fun (st : TDState) v =>
      let curr := st.parent.getD v 0
      if curr < 0 then
        let pb := qbPush st.q st.buf localSize v
        { parent := st.parent.set v (u : Int), q := pb.1, buf := pb.2,
          scout := st.scout + (-curr) }
      else st)
    st

/-- `SHMEM_TDStep` (src/bfs.cc lines 106-178) at `npes = 1`: scan the whole
promoted window, flush the queue buffer, and return the `sum_to_all`-reduced
scout count.  `local_scout` is `shmem_malloc`ed and never initialized, so
the returned count starts from the uninitialized content `junkScout`. -/
def shmemTDStep (g : SGraph) (localSize : Nat) (junkScout : Int) (parent : List Int)
    (q : SQueue) : List Int × SQueue × Int :=
  let st := (sqWindow q).foldl (tdProcessVertex g localSize)
    { parent := parent, q := q, buf := [], scout := junkScout }
  ((qbFlush st.q st.buf).1 |> (fun q2 => (st.parent, q2, st.scout)))

/-- Result of one `BUStep`. -/
structure BUResult where
  parent : List Int
  next : List Bool
  awake : Nat
deriving DecidableEq, Repr

/-- `BUStep` (src/bfs.cc lines 84-102; this is the variant `DOBFS` calls):
reset `next`; for every `u` with `parent[u] < 0`, take the first in-neighbour
on the frontier as parent, set `next`'s bit, and count `u` awake. -/
def buStep (g : SGraph) (parent : List Int) (front : List Bool) : BUResult :=
  (List.range g.numNodes).foldl
    (fun (st : BUResult) u =>
      if st.parent.getD u 0 < 0 then
        match (g.inNeigh u).find? (fun v => front.getD v false) with
        | some v => { parent := st.parent.set u (v : Int), next := st.next.set u true,
                      awake := st.awake + 1 }
        | none => st
      else st)
    { parent := parent, next := List.replicate g.numNodes false, awake := 0 }

/-- `QueueToBitmap` (src/bfs.cc lines 204-210): set the bit of every window
entry. -/
def queueToBitmap (q : SQueue) (bm : List Bool) : List Bool :=
  (sqWindow q).foldl (fun bm u => bm.set u true) bm

/-- `BitmapToQueue` (src/bfs.cc lines 213-230) at `npes = 1`: scan
`[0, num_nodes)`, buffer every set bit, flush, and slide the window. -/
def bitmapToQueue (g : SGraph) (bm : List Bool) (q : SQueue) (localSize : Nat) : SQueue :=
  let st := (List.range g.numNodes).foldl
    (fun (st : SQueue × List Nat) n =>
      if bm.getD n false then qbPush st.1 st.2 localSize n else st)
    (q, [])
  sqSlide (qbFlush st.1 st.2).1

/-- One application of `BUStep` viewed as a map on `(parent, front, awake)`;
`front.swap(curr)` makes the freshly written `next` bitmap the new front. -/
def buIterStep (g : SGraph) (s : List Int × List Bool × Nat) : List Int × List Bool × Nat :=
  let r := buStep g s.1 s.2.1
  (r.parent, r.next, r.awake)

/-- `k`-fold iteration of `buIterStep`, for stating the shape of the
bottom-up do-while loop. -/
def buIter (g : SGraph) : Nat → (List Int × List Bool × Nat) → List Int × List Bool × Nat
  | 0, s => s
  | k + 1, s => buIter g k (buIterStep g s)

/-- The bottom-up do-while loop of `DOBFS` (src/bfs.cc lines 287-295):
run `BUStep`, swap the bitmaps, and repeat while
`awake_count >= old_awake_count || awake_count > num_nodes / beta`. -/
def dobfsBULoop (g : SGraph) (beta : Nat) :
    Nat → List Int → List Bool → Nat → Option (List Int × List Bool × Nat)
  | 0, _, _, _ => none
  | fuel + 1, parent, front, awake =>
    let r := buStep g parent front
    if r.awake ≥ awake ∨ r.awake > g.numNodes / beta then
      dobfsBULoop g beta fuel r.parent r.next r.awake
    else some (r.parent, r.next, r.awake)

/-- The state carried around the outer `while (!frontier->empty())` loop of
`DOBFS` (src/bfs.cc lines 280-312). -/
structure DOBFSState where
  parent : List Int
  frontier : SQueue
  front : List Bool
  edgesToCheck : Int
  scout : Int

/-- `parent[n] = -1` for every remaining `parent[n] < -1`
(src/bfs.cc lines 313-317). -/
def dobfsPostProcess (parent : List Int) : List Int :=
  parent.map (fun x => if x < -1 then -1 else x)

/-- The outer direction-optimizing loop of `DOBFS` (src/bfs.cc lines
280-317) at `npes = 1`, followed by the post-processing pass.  `junk it` is
the uninitialized `local_scout` memory of the `it`-th `SHMEM_TDStep` call. -/
def dobfsOuter (g : SGraph) (alpha : Int) (beta : Nat) (localSize : Nat) (junk : Nat → Int) :
    Nat → Nat → DOBFSState → Option (List Int)
  | 0, _, _ => none
  | fuel + 1, it, st =>
    if sqEmpty st.frontier then some (dobfsPostProcess st.parent)
    else if st.scout > Int.tdiv st.edgesToCheck alpha then
      let front1 := queueToBitmap st.frontier st.front
      let awake0 := sqSize st.frontier
      let frontier1 := sqSlide st.frontier
      match dobfsBULoop g beta (fuel + 1) st.parent front1 awake0 with
      | none => none
      | some (parent2, front2, _) =>
        let frontier2 := bitmapToQueue g front2 frontier1 localSize
        dobfsOuter g alpha beta localSize junk fuel (it + 1)
          { parent := parent2, frontier := frontier2, front := front2,
            edgesToCheck := st.edgesToCheck, scout := 1 }
    else
      let etc2 := st.edgesToCheck - st.scout
      let r := shmemTDStep g localSize (junk it) st.parent st.frontier
      dobfsOuter g alpha beta localSize junk fuel (it + 1)
        { parent := r.1, frontier := sqSlide r.2.1, front := st.front,
          edgesToCheck := etc2, scout := r.2.2 }

/-- `DOBFS` (src/bfs.cc lines 257-318) at `npes = 1`: initialize the parent
array, seed the frontier with `source` and slide, reset the bitmaps, set
`edges_to_check = num_edges_directed` and `scout_count = out_degree(source)`,
then run the outer loop. -/
def dobfs (g : SGraph) (source : Nat) (alpha : Int) (beta : Nat) (localSize : Nat)
    (junk : Nat → Int) (fuel : Nat) : Option (List Int) :=
  let parent := initParent g source
  let frontier := sqSlide (sqPush { shared := [], outStart := 0, outEnd := 0 } source)
  let front := List.replicate g.numNodes false
  dobfsOuter g alpha beta localSize junk fuel 0
    { parent := parent, frontier := frontier, front := front,
      edgesToCheck := (g.numEdgesDirected : Int),
      scout := (g.outDegree source : Int) }


/-- A concrete outer-loop state: the triangle `K_3` right after
initialization from source `0` (frontier window `[0]`,
`edges_to_check = 6`, `scout_count = out_degree(0) = 2`). -/
def dobfsDemoState : DOBFSState :=
  { parent := initParent triangleK3 0
    frontier := sqSlide (sqPush { shared := [], outStart := 0, outEnd := 0 } 0)
    front := List.replicate 3 false
    edgesToCheck := 6
    scout := 2 }


/-! ### Shmem_DeltaStep (src/src/sssp.cc lines 69-196), single-rank instance

The delta-stepping kernel is embedded at `npes = 1`: the vertex partition is
`[0, num_nodes)`, the frontier partition of `curr_frontier_tail` entries is
the prefix `[0, curr_frontier_tail)` of the frontier array, remote
`getmem`/`putmem`/`compare_swap` are local reads and writes (a sequential
compare-and-swap always succeeds), the `min_to_all` vote reduces one rank's
`local_min`, and rank 0's single `fetch_add` on `next_frontier_tail` starts
from its current value.  `shared_indexes` and `frontier_tails` are the
two-element arrays indexed by `iter & 1`. -/

/-- `kDistInf = numeric_limits<WeightT>::max()/2` (src/src/sssp.cc line 65,
with `WeightT = int`). -/
def kDistInf : Nat := 1073741823

/-- `kMaxBin = numeric_limits<size_t>::max()/2` (src/src/sssp.cc line 66). -/
def kMaxBin : Nat := 9223372036854775807

/-- `kBinSizeThreshold = 1000` (src/src/sssp.cc line 67). -/
def kBinSizeThreshold : Nat := 1000

/-- The state of `Shmem_DeltaStep` at `npes = 1`: the `dist` array, the
growable `local_bins`, the shared `frontier` array, `shared_indexes[2]`,
`frontier_tails[2]`, and the shared iteration counter. -/
structure DSState where
  dist : List Nat
  bins : List (List Nat)
  frontier : List Nat
  idx : List Nat
  tails : List Nat
  iter : Nat
deriving DecidableEq, Repr

/-- `local_bins[dest_bin].push_back(v)` after
`if (dest_bin >= local_bins.size()) local_bins.resize(dest_bin+1)`
(src/src/sssp.cc lines 78-81). -/
def binsPush (bins : List (List Nat)) (j : Nat) (v : Nat) : List (List Nat) :=
  let bins2 := if j < bins.length then bins
    else bins ++ List.replicate (j + 1 - bins.length) ([] : List Nat)
  bins2.set j (bins2.getD j [] ++ [v])

/-- `RelaxEdges` (src/src/sssp.cc lines 69-87) at `npes = 1`: for each
weighted out-neighbour `(v, w)` of `u`, read `old = dist[v]` and
`new = dist[u] + w`; the sequential compare-and-swap succeeds exactly when
`new < old`, writing `dist[v] = new` and binning `v` into
`local_bins[new/delta]`. -/
def relaxEdge (delta u : Nat) (st : DSState) (vw : Nat × Nat) : DSState :=
  let nd := st.dist.getD u 0 + vw.2
  if nd < st.dist.getD vw.1 0 then
    { st with
      dist := st.dist.set vw.1 nd
      bins := binsPush st.bins (nd / delta) vw.1 }
  else st

/-- The loop of `RelaxEdges` over `g.out_neigh(u)`. -/
def relaxEdges (g : WSGraph) (delta : Nat) (u : Nat) (st : DSState) : DSState :=
  (g.outNeighW u).foldl (relaxEdge delta u) st

/-- Phase 1 (src/src/sssp.cc lines 119-125) at `npes = 1`: for every entry
`u` of the current frontier window, relax `u`'s edges when
`dist[u] >= delta * curr_bin_index`. -/
def dsPhase1 (g : WSGraph) (delta : Nat) (st : DSState) : DSState :=
  (st.frontier.take (st.tails.getD (st.iter % 2) 0)).foldl
    (fun (st2 : DSState) u =>
      if st2.dist.getD u 0 ≥ delta * (st.idx.getD (st.iter % 2) 0) then
        relaxEdges g delta u st2
      else st2)
    st

/-- The bucket-fusion loop (src/src/sssp.cc lines 127-135): while the
current bin is non-empty and below the size threshold, drain a copy of it
through `RelaxEdges`. -/
def fusionLoop (g : WSGraph) (delta currBin : Nat) : Nat → DSState → Option DSState
  | 0, _ => none
  | fuel + 1, st =>
    if currBin < st.bins.length ∧ st.bins.getD currBin [] ≠ []
        ∧ (st.bins.getD currBin []).length < kBinSizeThreshold then
      let copy := st.bins.getD currBin []
      let st3 := copy.foldl (fun s u => relaxEdges g delta u s)
        { st with bins := st.bins.set currBin [] }
      fusionLoop g delta currBin fuel st3
    else some st

/-- The vote (src/src/sssp.cc lines 137-144) at `npes = 1`: `local_min`
starts as `next_bin_index` and the scan from `curr_bin_index` takes the
`min` with the first non-empty bin, then `min_to_all` over the single rank
yields `local_min` itself. -/
def voteBin (bins : List (List Nat)) (currBin nextOld : Nat) : Nat :=
  match (List.range' currBin (bins.length - currBin)).find?
      (fun i => !(bins.getD i []).isEmpty) with
  | some i => min nextOld i
  | none => nextOld

/-- The end of one outer iteration (src/src/sssp.cc lines 137-192) at
`npes = 1`: vote, write `next_bin_index`, reset
`curr_bin_index = kMaxBin` and `curr_frontier_tail = 0`, then — when the
voted bin exists — `fetch_add` the bin size onto `next_frontier_tail`,
copy the bin contents into the frontier at the reserved offset, clear the
bin, and finally increment `iter`. -/
def deltaStepIterEnd (st : DSState) : DSState :=
  let currBin := st.idx.getD (st.iter % 2) 0
  let nextBin := voteBin st.bins currBin (st.idx.getD ((st.iter + 1) % 2) 0)
  let idx2 := (st.idx.set ((st.iter + 1) % 2) nextBin).set (st.iter % 2) kMaxBin
  let tails2 := st.tails.set (st.iter % 2) 0
  if nextBin < st.bins.length then
    let content := st.bins.getD nextBin []
    let copyStart := tails2.getD ((st.iter + 1) % 2) 0
    { dist := st.dist
      bins := st.bins.set nextBin []
      frontier := writeRange st.frontier copyStart content
      idx := idx2
      tails := tails2.set ((st.iter + 1) % 2) (copyStart + content.length)
      iter := st.iter + 1 }
  else
    { st with idx := idx2, tails := tails2, iter := st.iter + 1 }

/-- The outer loop `while (shared_indexes[iter&1] != kMaxBin)`
(src/src/sssp.cc lines 113-193). -/
def deltaStepLoop (g : WSGraph) (delta : Nat) : Nat → DSState → Option (List Nat)
  | 0, _ => none
  | fuel + 1, st =>
    if st.idx.getD (st.iter % 2) 0 ≠ kMaxBin then
      match fusionLoop g delta (st.idx.getD (st.iter % 2) 0) (fuel + 1)
          (dsPhase1 g delta st) with
      | none => none
      | some st2 => deltaStepLoop g delta fuel (deltaStepIterEnd st2)
    else some st.dist

/-- `Shmem_DeltaStep` (src/src/sssp.cc lines 89-196) at `npes = 1`:
`dist` starts at `kDistInf` with `dist[source] = 0`, the frontier starts as
`[source]`, `shared_indexes = {0, kMaxBin}`, `frontier_tails = {1, 0}`,
`iter = 0`. -/
def shmemDeltaStep (g : WSGraph) (source delta fuel : Nat) : Option (List Nat) :=
  let dist0 := if source < g.numNodes
    then (List.replicate g.numNodes kDistInf).set source 0
    else List.replicate g.numNodes kDistInf
  deltaStepLoop g delta fuel
    { dist := dist0, bins := [], frontier := [source],
      idx := [0, kMaxBin], tails := [1, 0], iter := 0 }

/-- A source-to-`v` path in the weighted graph whose total weight is the
last argument (reference side, for the path-realizability property). -/
inductive IsPath (g : WSGraph) (s : Nat) : Nat → Nat → Prop where
  | refl : IsPath g s s 0
  | step : ∀ u v w c, IsPath g s u c → (v, w) ∈ g.outNeighW u → IsPath g s v (c + w)

/-- The weighted diamond of spec scenario 6: edges `(0,1,1)`, `(0,2,4)`,
`(1,2,2)`, `(2,3,1)`, `(1,3,5)`. -/
def diamondW : WSGraph :=
  { numNodes := 4
    outNeighW := fun u => [[(1, 1), (2, 4)], [(2, 2), (3, 5)], [(3, 1)], []].getD u [] }


/-- `curr_bin_index`: `shared_indexes[iter & 1]`. -/
def dsC (st : DSState) : Nat := st.idx.getD (st.iter % 2) 0

/-- `curr_frontier_tail`: `frontier_tails[iter & 1]`. -/
def dsTail (st : DSState) : Nat := st.tails.getD (st.iter % 2) 0

/-- `next_bin_index`: `shared_indexes[(iter + 1) & 1]`. -/
def dsNextIdx (st : DSState) : Nat := st.idx.getD ((st.iter + 1) % 2) 0

/-- `next_frontier_tail`: `frontier_tails[(iter + 1) & 1]`. -/
def dsNextTail (st : DSState) : Nat := st.tails.getD ((st.iter + 1) % 2) 0

/-- All out-edges of `u` are relaxed under `dist`. -/
def EdgesOK (g : WSGraph) (dist : List Nat) (u : Nat) : Prop :=
  ∀ vw ∈ g.outNeighW u, dist.getD vw.1 0 ≤ dist.getD u 0 + vw.2

/-- `u` sits in some bin whose lower boundary is at most `dist[u]` (so the
bin will still process `u` at its current distance). -/
def InBins (delta : Nat) (bins : List (List Nat)) (dist : List Nat) (u : Nat) : Prop :=
  ∃ j, u ∈ bins.getD j [] ∧ delta * j ≤ dist.getD u 0

/-- The distance-array core invariant: size, `dist[source] = 0`, all values
at most `kDistInf`, and every finite value realized by a path. -/
def DistCore (g : WSGraph) (source : Nat) (dist : List Nat) : Prop :=
  dist.length = g.numNodes
  ∧ dist.getD source 0 = 0
  ∧ (∀ v, v < g.numNodes → dist.getD v 0 ≤ kDistInf)
  ∧ (∀ v, v < g.numNodes → dist.getD v 0 < kDistInf → IsPath g source v (dist.getD v 0))

/-- Coverage of a finite-distance vertex during an iteration with current
bin `C`: its edges are already relaxed, or it is pending in a bin, or it is
pending in the unprocessed part of the work list with a distance that the
`dist[u] >= delta * curr_bin` check will accept. -/
def Covered (g : WSGraph) (delta : Nat) (dist : List Nat) (bins : List (List Nat))
    (pending : List Nat) (C : Nat) (u : Nat) : Prop :=
  EdgesOK g dist u ∨ InBins delta bins dist u
  ∨ (u ∈ pending ∧ delta * C ≤ dist.getD u 0)

/-- The stable invariant of the outer delta-stepping loop, at the top of
each iteration. -/
def DSInv (g : WSGraph) (source delta : Nat) (st : DSState) : Prop :=
  DistCore g source st.dist
  ∧ st.idx.length = 2 ∧ st.tails.length = 2
  ∧ dsNextIdx st = kMaxBin
  ∧ dsNextTail st = 0
  ∧ dsTail st ≤ st.frontier.length
  ∧ (∀ x ∈ st.frontier.take (dsTail st), x < g.numNodes)
  ∧ (∀ j, ∀ x ∈ st.bins.getD j [], x < g.numNodes)
  ∧ st.bins.length ≤ kDistInf
  ∧ (if dsC st = kMaxBin then
      (∀ j, st.bins.getD j [] = [])
      ∧ (∀ u, u < g.numNodes → st.dist.getD u 0 < kDistInf → EdgesOK g st.dist u)
    else
      (∀ j, j < dsC st → st.bins.getD j [] = [])
      ∧ (∀ u, u < g.numNodes → st.dist.getD u 0 < kDistInf →
          Covered g delta st.dist st.bins (st.frontier.take (dsTail st)) (dsC st) u))

/-- The parent-array invariant of the BFS kernel: the length is `num_nodes`
and every non-negative entry is a valid node id. -/
def ParentInv (n : Nat) (p : List Int) : Prop :=
  p.length = n ∧ ∀ x ∈ p, 0 ≤ x → x < (n : Int)

/-- The sliding-queue invariant: every id in the backing array is a valid
node id. -/
def FrontierInv (n : Nat) (q : SQueue) : Prop := ∀ x ∈ q.shared, x < n

/-- The mid-iteration invariant of one delta-stepping outer iteration with
current bin `C` and unprocessed work list `pending`: distance core, bounded
bin count, bin entries in range, bins below `C` empty, and every
finite-distance vertex covered. -/
def MidInv (g : WSGraph) (source delta C : Nat) (pending : List Nat) (st : DSState) : Prop :=
  DistCore g source st.dist
  ∧ st.bins.length ≤ kDistInf
  ∧ (∀ j, ∀ x ∈ st.bins.getD j [], x < g.numNodes)
  ∧ (∀ j, j < C → st.bins.getD j [] = [])
  ∧ (∀ x, x < g.numNodes → st.dist.getD x 0 < kDistInf →
      Covered g delta st.dist st.bins pending C x)

/-! ## Theorems -/







/-- C10: with `npes ≥ 1` and `num_nodes ≥ npes` the owner computation of
`SHMEM_TDStep` is total (`parent_offset ≥ 1`, so no division by zero),
produces `foreign_pe ∈ [0, npes)`, and a local index that addresses exactly
the global id `v` inside the owner's slice; and whenever `num_nodes < npes`
the divisor `parent_offset` is zero, so `num_nodes ≥ npes` is necessary. -/
theorem shmem_tdstep_owner_total (n N v : Nat) (hN : 1 ≤ N) (hn : N ≤ n) (hv : v < n) :
    1 ≤ tdParentOffset n N
    ∧ tdForeignPe n N v < N
    ∧ tdLowerBound n N (tdForeignPe n N v) + tdLocalV n N v = v
    ∧ tdLocalV n N v < tdUpperBound n N (tdForeignPe n N v) - tdLowerBound n N (tdForeignPe n N v)
    ∧ (∀ m, m < N → tdParentOffset m N = 0) := by
  have hNpos : 0 < N := hN
  have hoffpos : 0 < tdParentOffset n N :=
    (Nat.one_le_div_iff hNpos).mpr hn
  have hoffN : tdParentOffset n N * N ≤ n := Nat.div_mul_le_self n N
  have hsplit : tdParentOffset n N * (N - 1) + tdParentOffset n N
      = tdParentOffset n N * N := by
    have h5 : N - 1 + 1 = N := Nat.succ_pred_eq_of_pos hNpos
    calc tdParentOffset n N * (N - 1) + tdParentOffset n N
        = tdParentOffset n N * (N - 1 + 1) := (Nat.mul_succ _ _).symm
      _ = tdParentOffset n N * N := by rw [h5]
  have hlast : ∀ m, m < N → tdParentOffset m N = 0 := fun m hm => Nat.div_eq_of_lt hm
  by_cases hcl : v / tdParentOffset n N ≥ N
  · have h1 : N * tdParentOffset n N ≤ v := (Nat.le_div_iff_mul_le hoffpos).mp hcl
    have h2 : tdParentOffset n N * N ≤ v := by rw [Nat.mul_comm] at h1; exact h1
    refine ⟨hoffpos, ?_, ?_, ?_, hlast⟩
    · simp only [tdForeignPe, if_pos hcl]; omega
    · simp only [tdForeignPe, tdLocalV, tdLowerBound, if_pos hcl]; omega
    · simp only [tdForeignPe, tdLocalV, tdLowerBound, tdUpperBound, if_pos hcl, if_pos rfl,
        if_true]
      omega
  · have hdm : tdParentOffset n N * (v / tdParentOffset n N) + v % tdParentOffset n N = v :=
      Nat.div_add_mod v (tdParentOffset n N)
    have hmod : v % tdParentOffset n N < tdParentOffset n N := Nat.mod_lt v hoffpos
    refine ⟨hoffpos, ?_, ?_, ?_, hlast⟩
    · simp only [tdForeignPe, if_neg hcl]; omega
    · simp only [tdForeignPe, tdLocalV, tdLowerBound, if_neg hcl]; omega
    · simp only [tdForeignPe, tdLocalV, tdLowerBound, tdUpperBound, if_neg hcl]
      by_cases htail : v / tdParentOffset n N = N - 1
      · simp only [if_pos htail, htail, if_true]; omega
      · simp only [if_neg htail]; omega

/-- Witness for `shmem_tdstep_owner_total` at `n = 5`, `N = 2`, `v = 4`. -/
theorem shmem_tdstep_owner_total_witness :
    1 ≤ tdParentOffset 5 2
    ∧ tdForeignPe 5 2 4 < 2
    ∧ tdLowerBound 5 2 (tdForeignPe 5 2 4) + tdLocalV 5 2 4 = 4
    ∧ tdLocalV 5 2 4 < tdUpperBound 5 2 (tdForeignPe 5 2 4) - tdLowerBound 5 2 (tdForeignPe 5 2 4)
    ∧ (∀ m, m < 2 → tdParentOffset m 2 = 0) :=
  shmem_tdstep_owner_total 5 2 4 (by decide) (by decide) (by decide)

/-- Membership does not grow under `squishUnique`. -/
theorem mem_squishUnique {x : Int} : ∀ {l : List Int}, x ∈ squishUnique l → x ∈ l
  | [], h => by simp [squishUnique] at h
  | [a], h => by rw [squishUnique] at h; exact h
  | a :: b :: t, h => by
    rw [squishUnique] at h
    by_cases hab : a = b
    · rw [if_pos hab] at h
      have := mem_squishUnique h
      simp only [List.mem_cons] at this ⊢
      tauto
    · rw [if_neg hab] at h
      simp only [List.mem_cons] at h ⊢
      rcases h with h | h
      · tauto
      · have := mem_squishUnique h
        simp only [List.mem_cons] at this
        tauto
termination_by l => l.length

/-- On a `≤`-sorted list, `squishUnique` produces a strictly sorted list. -/
theorem sorted_squishUnique : ∀ {l : List Int},
    l.Sorted (· ≤ ·) → (squishUnique l).Sorted (· < ·)
  | [], _ => by simp [squishUnique]
  | [a], _ => by simp [squishUnique]
  | a :: b :: t, h => by
    rw [squishUnique]
    have hab : a ≤ b := (List.sorted_cons.mp h).1 b (by simp)
    have hbt : (b :: t).Sorted (· ≤ ·) := (List.sorted_cons.mp h).2
    by_cases heq : a = b
    · rw [if_pos heq]
      have hat : (a :: t).Sorted (· ≤ ·) := by
        rw [List.sorted_cons]
        refine ⟨?_, (List.sorted_cons.mp hbt).2⟩
        intro x hx
        exact heq ▸ (List.sorted_cons.mp hbt).1 x hx
      exact sorted_squishUnique hat
    · rw [if_neg heq]
      rw [List.sorted_cons]
      refine ⟨?_, sorted_squishUnique hbt⟩
      intro x hx
      have hxbt : x ∈ b :: t := mem_squishUnique hx
      have hbx : b ≤ x := by
        rcases List.mem_cons.mp hxbt with h1 | h1
        · exact h1 ▸ le_refl b
        · exact (List.sorted_cons.mp hbt).1 x h1
      exact lt_of_lt_of_le (lt_of_le_of_ne hab heq) hbx
termination_by l => l.length

/-- C6: after `SquishCSR`, every vertex's neighbour list in the produced CSR
is strictly increasing (sorted ascending without duplicates) and contains no
occurrence of the vertex's own id. -/
theorem squishCSR_sorted_no_selfloop (lists : List (List Int)) (i : Nat)
    (h : i < (squishCSR lists).length) :
    ((squishCSR lists).get ⟨i, h⟩).Sorted (· < ·)
    ∧ Int.ofNat i ∉ (squishCSR lists).get ⟨i, h⟩ := by
  have hlen : (squishCSR lists).length = lists.length := by
    simp [squishCSR]
  have hget : (squishCSR lists).get ⟨i, h⟩
      = squish (Int.ofNat i) (lists.get ⟨i, by omega⟩) := by
    simp [squishCSR, List.getElem_mapIdx]
  rw [hget]
  constructor
  · have hsorted : (squishSort (lists.get ⟨i, by omega⟩)).Sorted (· ≤ ·) :=
      List.sorted_mergeSort' _
    have := sorted_squishUnique hsorted
    exact List.Sorted.filter _ this
  · intro hmem
    have := List.of_mem_filter hmem
    simp at this

/-- Witness for `squishCSR_sorted_no_selfloop` on the concrete CSR
`[[2, 1, 2, 0], [1, 1]]` at vertex `0`. -/
theorem squishCSR_sorted_no_selfloop_witness :
    (0 < (squishCSR [[2, 1, 2, 0], [1, 1]]).length)
    ∧ (((squishCSR [[2, 1, 2, 0], [1, 1]]).get ⟨0, by decide⟩).Sorted (· < ·)
        ∧ Int.ofNat 0 ∉ (squishCSR [[2, 1, 2, 0], [1, 1]]).get ⟨0, by decide⟩) :=
  ⟨by decide, squishCSR_sorted_no_selfloop [[2, 1, 2, 0], [1, 1]] 0 (by decide)⟩

/-- C1 (failing input): with 2 ranks, rank 0 flushes a buffer of
`local_size = 2` holding 1 staged item (`7`; slot `9` is unstaged garbage),
then rank 1 flushes an empty buffer.  After both flushes (lock-serialized)
and a barrier, the ranks disagree on `shared_in` (4 vs 2) and their backing
arrays differ, because `flush` advances its own `shared_in` by `in` but puts
`copy_start + local_size` (and `local_size` array items) to every other
rank. -/
theorem queueFlush_breaks_agreement :
    (queueFlush (queueFlush queueState0 0 [7, 9] 1) 1 [5, 6] 0).map QueueRank.sharedIn
      = [4, 2]
    ∧ (queueFlush (queueFlush queueState0 0 [7, 9] 1) 1 [5, 6] 0).map QueueRank.shared
      = [[7, 0, 5, 6], [7, 9, 0, 0]]
    ∧ (4 : Nat) ≠ 2
    ∧ ([7, 0, 5, 6] : List Int) ≠ [7, 9, 0, 0] := by
  refine ⟨rfl, rfl, by decide, by decide⟩

/-- C2 (counterexample): rank 1 flushes 1 staged item from a `local_size = 2`
buffer into the fresh two-rank queue.  The claim predicts a `fetch_add` on
rank 0's `shared_in` and that every rank receives `shared_in = copy_start +
in = 1`; instead the `fetch_add` hits rank 1's own cursor and rank 0
receives `copy_start + local_size = 2 ≠ 1`. -/
theorem queueFlush_claimed_steps_false :
    (queueFlush queueState0 1 [7, 9] 1).map QueueRank.sharedIn = [2, 1]
    ∧ (2 : Nat) ≠ 0 + 1 := ⟨rfl, by decide⟩

/-- Reading back a just-written range: helper for `queueFlush_steps`. -/
theorem writeRange_extract (l xs : List Int) (s : Nat) (h : s + xs.length ≤ l.length) :
    ((writeRange l s xs).drop s).take xs.length = xs := by
  unfold writeRange
  have hs : s ≤ l.length := by omega
  have hlen : (l.take s).length = s := by simp [Nat.min_eq_left hs]
  rw [List.append_assoc, List.drop_left' hlen, List.take_left]

/-- Bounded `getD` is plain indexing. -/
theorem getD_of_lt {α : Type} (l : List α) (i : Nat) (d : α) (h : i < l.length) :
    l.getD i d = l.get ⟨i, h⟩ := by
  simp [List.getD_eq_getElem?_getD, List.getElem?_eq_getElem h]

/-- C2 (amended): `flush` by rank `pe` with `in = k` staged items in a buffer
array `buf` of `local_size = buf.length` slots (1) is serialized under the
global queue lock, (2) reserves `[copy_start, copy_start + k)` by a
`fetch_add` of `k` on the *calling rank's own* `shared_in`, (3) copies the
`k` staged items into its own backing array at `copy_start` and puts the
buffer's full `local_size` slots (staged items first, then unstaged slots)
into every *other* rank's backing array at `copy_start` together with
`shared_in = copy_start + local_size`, and (4) releases the lock.  In
particular every rank's array holds the `k` staged items at
`[copy_start, copy_start + k)`. -/
theorem queueFlush_steps (st : List QueueRank) (pe : Nat) (buf : List Int) (k : Nat)
    (hpe : pe < st.length) (hk : k ≤ buf.length)
    (hcap : ∀ i, i < st.length →
      (st.getD pe ⟨[], 0⟩).sharedIn + buf.length ≤ (st.getD i ⟨[], 0⟩).shared.length) :
    (queueFlush st pe buf k).length = st.length
    ∧ ((queueFlush st pe buf k).getD pe ⟨[], 0⟩).sharedIn
        = (st.getD pe ⟨[], 0⟩).sharedIn + k
    ∧ (∀ i, i < st.length → i ≠ pe →
        ((queueFlush st pe buf k).getD i ⟨[], 0⟩).sharedIn
          = (st.getD pe ⟨[], 0⟩).sharedIn + buf.length)
    ∧ (∀ i, i < st.length →
        (((queueFlush st pe buf k).getD i ⟨[], 0⟩).shared.drop
            ((st.getD pe ⟨[], 0⟩).sharedIn)).take k = buf.take k)
    ∧ (∀ i, i < st.length → i ≠ pe →
        (((queueFlush st pe buf k).getD i ⟨[], 0⟩).shared.drop
            ((st.getD pe ⟨[], 0⟩).sharedIn)).take buf.length = buf) := by
  have hlen : (queueFlush st pe buf k).length = st.length := by
    simp [queueFlush]
  have hget : ∀ i (h : i < st.length),
      (queueFlush st pe buf k).getD i ⟨[], 0⟩
        = (if i = pe then
            { shared := writeRange (st.get ⟨i, h⟩).shared ((st.getD pe ⟨[], 0⟩).sharedIn)
                (buf.take k),
              sharedIn := (st.getD pe ⟨[], 0⟩).sharedIn + k }
          else
            { shared := writeRange (st.get ⟨i, h⟩).shared ((st.getD pe ⟨[], 0⟩).sharedIn) buf,
              sharedIn := (st.getD pe ⟨[], 0⟩).sharedIn + buf.length } : QueueRank) := by
    intro i h
    rw [getD_of_lt _ _ _ (by omega : i < (queueFlush st pe buf k).length)]
    simp [queueFlush, List.get_eq_getElem, List.getElem_mapIdx]
  have hcap2 : ∀ i (h : i < st.length),
      (st.getD pe ⟨[], 0⟩).sharedIn + buf.length ≤ (st.get ⟨i, h⟩).shared.length := by
    intro i h
    have := hcap i h
    rwa [getD_of_lt _ _ _ h] at this
  refine ⟨hlen, ?_, ?_, ?_, ?_⟩
  · rw [hget pe hpe, if_pos rfl]
  · intro i hi hne
    rw [hget i hi, if_neg hne]
  · intro i hi
    by_cases hip : i = pe
    · rw [hget i hi, if_pos hip]
      have hkl : (buf.take k).length = k := by simp [Nat.min_eq_left hk]
      have := writeRange_extract (st.get ⟨i, hi⟩).shared (buf.take k)
        ((st.getD pe ⟨[], 0⟩).sharedIn) (by rw [hkl]; have := hcap2 i hi; omega)
      rw [hkl] at this
      simpa using this
    · rw [hget i hi, if_neg hip]
      have hfull := writeRange_extract (st.get ⟨i, hi⟩).shared buf
        ((st.getD pe ⟨[], 0⟩).sharedIn) (hcap2 i hi)
      have : ((writeRange (st.get ⟨i, hi⟩).shared ((st.getD pe ⟨[], 0⟩).sharedIn) buf).drop
          ((st.getD pe ⟨[], 0⟩).sharedIn)).take k
          = (((writeRange (st.get ⟨i, hi⟩).shared ((st.getD pe ⟨[], 0⟩).sharedIn) buf).drop
          ((st.getD pe ⟨[], 0⟩).sharedIn)).take buf.length).take k := by
        rw [List.take_take, Nat.min_eq_left hk]
      rw [this, hfull]
  · intro i hi hne
    rw [hget i hi, if_neg hne]
    exact writeRange_extract (st.get ⟨i, hi⟩).shared buf
      ((st.getD pe ⟨[], 0⟩).sharedIn) (hcap2 i hi)

/-- Witness for `queueFlush_steps`: rank 0 flushes 1 staged item of a
2-slot buffer into the fresh two-rank queue. -/
theorem queueFlush_steps_witness :
    (queueFlush queueState0 0 [7, 9] 1).length = queueState0.length
    ∧ ((queueFlush queueState0 0 [7, 9] 1).getD 0 ⟨[], 0⟩).sharedIn
        = (queueState0.getD 0 ⟨[], 0⟩).sharedIn + 1
    ∧ (∀ i, i < queueState0.length → i ≠ 0 →
        ((queueFlush queueState0 0 [7, 9] 1).getD i ⟨[], 0⟩).sharedIn
          = (queueState0.getD 0 ⟨[], 0⟩).sharedIn + ([7, 9] : List Int).length)
    ∧ (∀ i, i < queueState0.length →
        (((queueFlush queueState0 0 [7, 9] 1).getD i ⟨[], 0⟩).shared.drop
            ((queueState0.getD 0 ⟨[], 0⟩).sharedIn)).take 1 = ([7, 9] : List Int).take 1)
    ∧ (∀ i, i < queueState0.length → i ≠ 0 →
        (((queueFlush queueState0 0 [7, 9] 1).getD i ⟨[], 0⟩).shared.drop
            ((queueState0.getD 0 ⟨[], 0⟩).sharedIn)).take ([7, 9] : List Int).length
          = [7, 9]) :=
  queueFlush_steps queueState0 0 [7, 9] 1 (by decide) (by decide)
    (by
      intro i hi
      have h2 : i < 2 := by simpa [queueState0] using hi
      interval_cases i <;> decide)

/-- C9 (counterexample): the SSSP and TC verifiers return `true` even when
the computed output disagrees with the reference.  `TCVerifier` accepts the
count `5` for the path `0 - 1 - 2` although the brute-force reference count
is `0`, and `SSSPVerifier` accepts `dist = [42]` for the one-node graph
although every correct distance vector has `dist[source] = 0`. -/
theorem verifier_mismatch_not_flagged :
    tcVerifier pathGraph3 5 = true
    ∧ bruteTriangles pathGraph3 = 0
    ∧ (5 : Nat) ≠ 0
    ∧ ssspVerifier wGraph1 0 [42] = true
    ∧ (42 : Nat) ≠ 0 := by
  refine ⟨rfl, by decide, by decide, rfl, by decide⟩

/-- C9 (amended): each verifier returns a boolean verdict and returns
normally rather than aborting the job.  The BFS verifier checks the parent
array against a serial reference BFS, returning `false` on a mismatch
(printing a warning) and `true` on agreement — exhibited on the path
`0 - 1 - 2` with the correct tree `[0, 0, 1]` and the wrong tree
`[0, 2, 1]`.  The SSSP and TC verifiers perform no comparison at all: they
append the result to their output file and always return `true`. -/
theorem verifier_verdicts :
    (∀ (g : WSGraph) (s : Nat) (d : List Nat), ssspVerifier g s d = true)
    ∧ (∀ (g : SGraph) (t : Nat), tcVerifier g t = true)
    ∧ bfsVerifier pathGraph3 0 [0, 0, 1] = true
    ∧ bfsVerifier pathGraph3 0 [0, 2, 1] = false := by
  refine ⟨fun _ _ _ => rfl, fun _ _ => rfl, by decide, by decide⟩

/-- C5 (failing input): `SHMEM_BUStep` on the single-rank graph `0 → 1` with
`front = {0}` and `parent = [0, -1]`: vertex `1` is correctly assigned
parent `0` and its bit is set in `next`, but the function returns the
uninitialized allocation content (`junk = 0` here) instead of the number of
newly visited vertices (`1`), because `awake_count++` at src/bfs.cc line 72
increments the pointer rather than the pointed-to counter. -/
theorem shmem_bustep_awake_count_bug :
    shmemBUStep edgeGraph2 [0, -1] [true, false] 0 = ([0, 0], [false, true], 0)
    ∧ (0 : Int) ≠ 1 := by
  refine ⟨by decide, by decide⟩

/-- An element not satisfying `p` survives `dropWhile p`. -/
theorem mem_dropWhile_of_not {p : Nat → Bool} :
    ∀ {l : List Nat} {x : Nat}, x ∈ l → p x = false → x ∈ l.dropWhile p
  | a :: t, x, hx, hp => by
    rw [List.dropWhile_cons]
    by_cases hpa : p a
    · rw [if_pos hpa]
      rcases List.mem_cons.mp hx with h | h
      · subst h; rw [hp] at hpa; exact absurd hpa (by simp)
      · exact mem_dropWhile_of_not h hp
    · rw [if_neg hpa]
      exact hx

/-- On a strictly sorted iterator run that still contains an element `≥ w`,
the `OrderedCount` walk reports exactly membership of `w` and leaves the
iterator at the first element `≥ w`. -/
theorem tcScan_spec : ∀ (it : List Nat) (w : Nat), it.Sorted (· < ·) →
    (∃ x, x ∈ it ∧ w ≤ x) →
    tcScan it w = (decide (w ∈ it), it.dropWhile (fun x => decide (x < w)))
  | [], w, _, hstop => by
    rcases hstop with ⟨x, hx, _⟩
    simp at hx
  | a :: t, w, hsort, hstop => by
    rw [tcScan, List.dropWhile_cons]
    by_cases haw : a < w
    · rw [if_pos haw, if_pos (by simpa using haw)]
      have hstop2 : ∃ x, x ∈ t ∧ w ≤ x := by
        rcases hstop with ⟨x, hx, hwx⟩
        rcases List.mem_cons.mp hx with h | h
        · omega
        · exact ⟨x, h, hwx⟩
      rw [tcScan_spec t w (List.sorted_cons.mp hsort).2 hstop2]
      have hb : decide (w ∈ t) = decide (w ∈ a :: t) := by
        apply decide_eq_decide.mpr
        simp only [List.mem_cons]
        have : ¬(w = a) := by omega
        simp [this]
      rw [hb]
    · rw [if_neg haw, if_neg (by simpa using haw)]
      have hb : decide (w = a) = decide (w ∈ a :: t) := by
        apply decide_eq_decide.mpr
        simp only [List.mem_cons]
        by_cases hwa : w = a
        · simp [hwa]
        · have hat : ∀ b ∈ t, a < b := (List.sorted_cons.mp hsort).1
          have hnt : w ∉ t := by
            intro hmem
            have := hat w hmem
            omega
          simp [hwa, hnt]
      rw [hb]

/-- The inner `w` loop of `OrderedCount` counts exactly the `w ≤ v` prefix
elements of `out_neigh(v)` that also occur in `out_neigh(u)` (the iterator
run `it`). -/
theorem tcInner_eq (v : Nat) : ∀ (wl it : List Nat), wl.Sorted (· < ·) →
    it.Sorted (· < ·) → (∀ w ∈ wl, w ≤ v → ∃ x, x ∈ it ∧ w ≤ x) →
    tcInner wl v it
      = ((wl.filter (fun w => decide (w ≤ v) && decide (w ∈ it))).length)
  | [], it, _, _, _ => by simp [tcInner]
  | w :: rest, it, hwl, hit, hstop => by
    rw [tcInner]
    by_cases hwv : w > v
    · rw [if_pos hwv]
      have hfil : (w :: rest).filter (fun w => decide (w ≤ v) && decide (w ∈ it)) = [] := by
        rw [List.filter_eq_nil_iff]
        intro x hx
        have hxv : v < x := by
          rcases List.mem_cons.mp hx with h | h
          · omega
          · have := (List.sorted_cons.mp hwl).1 x h
            omega
        simp only [Bool.and_eq_true, decide_eq_true_eq]
        intro hcontra
        omega
      rw [hfil]
      rfl
    · rw [if_neg hwv]
      have hwv2 : w ≤ v := Nat.le_of_not_lt hwv
      have hstop1 : ∃ x, x ∈ it ∧ w ≤ x := hstop w (by simp) hwv2
      rw [tcScan_spec it w hit hstop1]
      dsimp only
      have hrest_sorted : rest.Sorted (· < ·) := (List.sorted_cons.mp hwl).2
      have hw_lt : ∀ x ∈ rest, w < x := (List.sorted_cons.mp hwl).1
      have hdrop_sorted : (it.dropWhile (fun x => decide (x < w))).Sorted (· < ·) :=
        List.Pairwise.sublist (List.dropWhile_sublist _) hit
      have hstop2 : ∀ w2 ∈ rest, w2 ≤ v →
          ∃ x, x ∈ it.dropWhile (fun x => decide (x < w)) ∧ w2 ≤ x := by
        intro w2 hw2 hw2v
        rcases hstop w2 (by simp [hw2]) hw2v with ⟨x, hx, hwx⟩
        refine ⟨x, ?_, hwx⟩
        apply mem_dropWhile_of_not hx
        have := hw_lt w2 hw2
        simp only [decide_eq_false_iff_not]
        omega
      rw [tcInner_eq v rest (it.dropWhile (fun x => decide (x < w))) hrest_sorted
        hdrop_sorted hstop2]
      have hmem_iff : ∀ x ∈ rest,
          (decide (x ≤ v) && decide (x ∈ it.dropWhile (fun x => decide (x < w))))
            = (decide (x ≤ v) && decide (x ∈ it)) := by
        intro x hx
        have hwx : w < x := hw_lt x hx
        have hdec : decide (x ∈ it.dropWhile (fun x => decide (x < w))) = decide (x ∈ it) := by
          apply decide_eq_decide.mpr
          constructor
          · intro hcontra
            exact (List.dropWhile_sublist _).subset hcontra
          · intro hin
            apply mem_dropWhile_of_not hin
            simp only [decide_eq_false_iff_not]
            omega
        rw [hdec]
      rw [List.filter_congr hmem_iff, List.filter_cons]
      have hwvt : decide (w ≤ v) = true := by simp [hwv2]
      by_cases hwin : w ∈ it
      · simp [hwin, hwvt]
        omega
      · simp [hwin, hwvt]

/-- The middle `v` loop of `OrderedCount` processes exactly the `v ≤ u`
prefix of `out_neigh(u)`. -/
theorem tcMiddle_eq (g : SGraph) (u : Nat) : ∀ (vl : List Nat), vl.Sorted (· < ·) →
    tcMiddle g u vl
      = (((vl.filter (fun v => decide (v ≤ u))).map
          (fun v => tcInner (g.outNeigh v) v (g.outNeigh u))).sum)
  | [], _ => by simp [tcMiddle]
  | v :: rest, hsort => by
    rw [tcMiddle]
    by_cases hvu : v > u
    · rw [if_pos hvu]
      have hfil : (v :: rest).filter (fun v => decide (v ≤ u)) = [] := by
        rw [List.filter_eq_nil_iff]
        intro x hx
        have : u < x := by
          rcases List.mem_cons.mp hx with h | h
          · omega
          · have := (List.sorted_cons.mp hsort).1 x h
            omega
        simp only [decide_eq_true_eq]
        omega
      rw [hfil]
      rfl
    · rw [if_neg hvu, tcMiddle_eq g u rest (List.sorted_cons.mp hsort).2,
        List.filter_cons]
      have : decide (v ≤ u) = true := by simp; omega
      simp [this]

/-- Dropping terms that are zero off the filter does not change a sum. -/
theorem sum_map_filter_of_zero (l : List Nat) (f : Nat → Nat) (p : Nat → Bool)
    (h : ∀ x ∈ l, p x = false → f x = 0) :
    (l.map f).sum = (((l.filter p).map f)).sum := by
  induction l with
  | nil => rfl
  | cons a t ih =>
    rw [List.filter_cons]
    by_cases hpa : p a = true
    · simp only [hpa, if_true, List.map_cons, List.sum_cons]
      rw [ih (fun x hx => h x (by simp [hx]))]
    · have hpa2 : p a = false := by simpa using hpa
      have hz : f a = 0 := h a (by simp) hpa2
      rw [if_neg (by simp [hpa2])]
      simp only [List.map_cons, List.sum_cons, hz]
      rw [ih (fun x hx => h x (by simp [hx]))]
      omega

/-- Two duplicate-free lists with the same members have the same mapped
sums. -/
theorem sum_map_eq_of_mem_iff (la lb : List Nat) (ha : la.Nodup) (hb : lb.Nodup)
    (hm : ∀ x, x ∈ la ↔ x ∈ lb) (f : Nat → Nat) :
    (la.map f).sum = (lb.map f).sum :=
  (((List.perm_ext_iff_of_nodup ha hb).mpr hm).map f).sum_eq

/-- Summing equal-width consecutive segments is summing the whole range. -/
theorem sum_segments (w : Nat) (f : Nat → Nat) : ∀ k : Nat,
    ((List.range k).map (fun p => ((List.range' (w * p) w).map f).sum)).sum
      = ((List.range' 0 (w * k)).map f).sum
  | 0 => by simp
  | k + 1 => by
    rw [List.range_succ, List.map_append, List.sum_append, sum_segments w f k]
    have hr : List.range' 0 (w * (k + 1)) = List.range' 0 (w * k) ++ List.range' (w * k) w := by
      have happ := List.range'_append 0 (w * k) w 1
      simp only [Nat.one_mul, Nat.zero_add] at happ
      have h2 : w * (k + 1) = w + w * k := by ring
      rw [h2]
      exact happ.symm
    rw [hr, List.map_append, List.sum_append]
    simp

/-- Summing the per-rank partition slices (spec section 3) is summing over
all vertices. -/
theorem sum_partition (n N : Nat) (hN : 1 ≤ N) (f : Nat → Nat) :
    ((List.range N).map (fun p =>
      ((List.range' (specPartStart n N p) (specPartEnd n N p - specPartStart n N p)).map
        f).sum)).sum
      = ((List.range' 0 n).map f).sum := by
  have hrange : List.range N = List.range (N - 1) ++ [N - 1] := by
    rw [← List.range_succ]
    congr 1
    omega
  rw [hrange, List.map_append, List.sum_append]
  have hwid : ∀ p, p < N - 1 →
      (List.range' (specPartStart n N p) (specPartEnd n N p - specPartStart n N p))
        = List.range' (specPartWidth n N * p) (specPartWidth n N) := by
    intro p hp
    have hne : p ≠ N - 1 := by omega
    rw [specPartEnd, if_neg hne, specPartStart]
    congr 1
    omega
  have hmain : ((List.range (N - 1)).map (fun p =>
      ((List.range' (specPartStart n N p) (specPartEnd n N p - specPartStart n N p)).map
        f).sum)).sum
      = ((List.range' 0 (specPartWidth n N * (N - 1))).map f).sum := by
    rw [← sum_segments (specPartWidth n N) f (N - 1)]
    apply congrArg
    apply List.map_congr_left
    intro p hp
    rw [hwid p (List.mem_range.mp hp)]
  rw [hmain]
  have htail : specPartEnd n N (N - 1) = n := by rw [specPartEnd, if_pos rfl]
  have hstart : specPartStart n N (N - 1) = specPartWidth n N * (N - 1) := rfl
  have hle : specPartWidth n N * (N - 1) ≤ n := by
    have h1 : specPartWidth n N * N ≤ n := Nat.div_mul_le_self n N
    have h2 : specPartWidth n N * (N - 1) ≤ specPartWidth n N * N :=
      Nat.mul_le_mul_left _ (by omega)
    omega
  simp only [htail, hstart, List.map_cons, List.sum_cons, List.map_nil, List.sum_nil]
  have hjoin : List.range' 0 (specPartWidth n N * (N - 1))
      ++ List.range' (specPartWidth n N * (N - 1)) (n - specPartWidth n N * (N - 1))
      = List.range' 0 n := by
    have happ := List.range'_append 0 (specPartWidth n N * (N - 1))
      (n - specPartWidth n N * (N - 1)) 1
    simp only [Nat.one_mul, Nat.zero_add] at happ
    rw [happ]
    congr 1
    omega
  rw [← hjoin, List.map_append, List.sum_append]
  omega

/-- On an undirected squished graph, the per-vertex count of `OrderedCount`
for vertex `u` equals the brute-force number of triples `a < b < u` that are
pairwise adjacent and have largest vertex `u`. -/
theorem tcMiddle_eq_brute (g : SGraph) (u : Nat)
    (hsorted : ∀ x, (g.outNeigh x).Sorted (· < ·))
    (hself : ∀ x, x ∉ g.outNeigh x)
    (hsym : ∀ x y, y ∈ g.outNeigh x → x ∈ g.outNeigh y) :
    tcMiddle g u (g.outNeigh u)
      = ((List.range u).map (fun b =>
          ((List.range b).filter (fun a =>
            hasEdge g a b && hasEdge g b u && hasEdge g a u)).length)).sum := by
  rw [tcMiddle_eq g u (g.outNeigh u) (hsorted u)]
  have hpoint : ∀ v ∈ (g.outNeigh u).filter (fun v => decide (v ≤ u)),
      tcInner (g.outNeigh v) v (g.outNeigh u)
        = ((List.range v).filter (fun a =>
            hasEdge g a v && hasEdge g v u && hasEdge g a u)).length := by
    intro v hv
    have hv1 : v ∈ g.outNeigh u := List.mem_of_mem_filter hv
    have hv2 : v ≤ u := by simpa using List.of_mem_filter hv
    have hstop : ∀ w ∈ g.outNeigh v, w ≤ v → ∃ x, x ∈ g.outNeigh u ∧ w ≤ x :=
      fun w _ hwv => ⟨v, hv1, hwv⟩
    rw [tcInner_eq v (g.outNeigh v) (g.outNeigh u) (hsorted v) (hsorted u) hstop]
    have hvu : hasEdge g v u = true := by
      simp only [hasEdge, decide_eq_true_eq]
      exact hsym u v hv1
    have hcong : ∀ a ∈ List.range v,
        (hasEdge g a v && hasEdge g v u && hasEdge g a u)
          = (decide (a ∈ g.outNeigh v) && decide (a ∈ g.outNeigh u)) := by
      intro a _
      rw [hvu]
      have h1 : hasEdge g a v = decide (a ∈ g.outNeigh v) := by
        apply Bool.eq_iff_iff.mpr
        simp only [hasEdge, decide_eq_true_eq]
        exact ⟨fun h => hsym a v h, fun h => hsym v a h⟩
      have h2 : hasEdge g a u = decide (a ∈ g.outNeigh u) := by
        apply Bool.eq_iff_iff.mpr
        simp only [hasEdge, decide_eq_true_eq]
        exact ⟨fun h => hsym a u h, fun h => hsym u a h⟩
      rw [h1, h2]
      simp [Bool.and_comm, Bool.and_assoc, Bool.and_left_comm]
    rw [List.filter_congr hcong]
    apply List.Perm.length_eq
    apply (List.perm_ext_iff_of_nodup ?_ ?_).mpr
    · intro x
      simp only [List.mem_filter, List.mem_range, Bool.and_eq_true, decide_eq_true_eq]
      constructor
      · rintro ⟨hxv, hxle, hxu⟩
        have hxne : x ≠ v := fun he => hself v (he ▸ hxv)
        exact ⟨by omega, hxv, hxu⟩
      · rintro ⟨hxlt, hxv, hxu⟩
        exact ⟨hxv, by omega, hxu⟩
    · exact List.Nodup.filter _ ((hsorted v).nodup)
    · exact List.Nodup.filter _ (List.nodup_range v)
  rw [List.map_congr_left hpoint]
  have hzero : ∀ b ∈ List.range u, decide (b ∈ g.outNeigh u) = false →
      ((List.range b).filter (fun a =>
        hasEdge g a b && hasEdge g b u && hasEdge g a u)).length = 0 := by
    intro b _ hb
    have hbu : hasEdge g b u = false := by
      simp only [hasEdge, decide_eq_false_iff_not]
      intro hmem
      have := hsym b u hmem
      simp only [decide_eq_false_iff_not] at hb
      exact hb this
    have : (List.range b).filter (fun a =>
        hasEdge g a b && hasEdge g b u && hasEdge g a u) = [] := by
      rw [List.filter_eq_nil_iff]
      intro a _
      rw [hbu]
      simp
    rw [this]
    rfl
  rw [sum_map_filter_of_zero (List.range u) _ (fun b => decide (b ∈ g.outNeigh u)) hzero]
  apply sum_map_eq_of_mem_iff
  · exact List.Nodup.filter _ ((hsorted u).nodup)
  · exact List.Nodup.filter _ (List.nodup_range u)
  · intro x
    simp only [List.mem_filter, List.mem_range, decide_eq_true_eq]
    constructor
    · rintro ⟨hxu, hxle⟩
      have : x ≠ u := fun he => hself u (he ▸ hxu)
      exact ⟨by omega, hxu⟩
    · rintro ⟨hxlt, hxu⟩
      exact ⟨hxu, by omega⟩

/-- C4: on an undirected squished graph (every neighbour list strictly
increasing, no self-loops, symmetric adjacency), `OrderedCount` — the
per-rank partition loops followed by the `sum_to_all` reduction — returns
exactly the brute-force number of unordered vertex triples that are pairwise
adjacent. -/
theorem orderedCount_eq_bruteTriangles (g : SGraph) (npes : Nat) (hN : 1 ≤ npes)
    (hsorted : ∀ x, (g.outNeigh x).Sorted (· < ·))
    (hself : ∀ x, x ∉ g.outNeigh x)
    (hsym : ∀ x y, y ∈ g.outNeigh x → x ∈ g.outNeigh y) :
    orderedCount g npes = bruteTriangles g := by
  rw [orderedCount, bruteTriangles]
  simp only [orderedCountLocal]
  rw [sum_partition g.numNodes npes hN (fun u => tcMiddle g u (g.outNeigh u))]
  rw [← List.range_eq_range']
  apply congrArg
  apply List.map_congr_left
  intro u _
  exact tcMiddle_eq_brute g u hsorted hself hsym

/-- Witness for `orderedCount_eq_bruteTriangles`: the triangle `K_3` (count
1) with 2 ranks, and additionally the path `0 - 1 - 2` (count 0). -/
theorem orderedCount_eq_bruteTriangles_witness :
    orderedCount triangleK3 2 = bruteTriangles triangleK3
    ∧ orderedCount triangleK3 2 = 1
    ∧ orderedCount pathGraph3 1 = 0 :=
  ⟨orderedCount_eq_bruteTriangles triangleK3 2 (by decide)
      (by
        intro x
        match x with
        | 0 => decide
        | 1 => decide
        | 2 => decide
        | x + 3 =>
          have : triangleK3.outNeigh (x + 3) = [] := by
            simp only [triangleK3]
            exact List.getD_eq_default _ _ (by simp only [List.length_cons, List.length_nil]; omega)
          rw [this]
          simp)
      (by
        intro x
        match x with
        | 0 => decide
        | 1 => decide
        | 2 => decide
        | x + 3 =>
          have : triangleK3.outNeigh (x + 3) = [] := by
            simp only [triangleK3]
            exact List.getD_eq_default _ _ (by simp only [List.length_cons, List.length_nil]; omega)
          rw [this]
          simp)
      (by
        intro x y hxy
        match x with
        | 0 =>
          have : y = 1 ∨ y = 2 := by simpa [triangleK3] using hxy
          rcases this with h | h <;> (subst h; decide)
        | 1 =>
          have : y = 0 ∨ y = 2 := by simpa [triangleK3] using hxy
          rcases this with h | h <;> (subst h; decide)
        | 2 =>
          have : y = 0 ∨ y = 1 := by simpa [triangleK3] using hxy
          rcases this with h | h <;> (subst h; decide)
        | x + 3 =>
          have : triangleK3.outNeigh (x + 3) = [] := by
            simp only [triangleK3]
            exact List.getD_eq_default _ _ (by simp only [List.length_cons, List.length_nil]; omega)
          rw [this] at hxy
          simp at hxy),
   by decide, by decide⟩

/-- Fold invariant preservation. -/
theorem foldl_preserve {α β : Type} (P : β → Prop) (f : β → α → β) :
    ∀ (l : List α) (s : β), P s → (∀ s2 a, a ∈ l → P s2 → P (f s2 a)) → P (l.foldl f s)
  | [], s, h, _ => h
  | a :: t, s, h, hstep =>
    foldl_preserve P f t (f s a) (hstep s a (by simp) h)
      (fun s2 b hb => hstep s2 b (by simp [hb]))

/-- Window entries come from the backing array. -/
theorem mem_shared_of_mem_window {q : SQueue} {x : Nat} (h : x ∈ sqWindow q) :
    x ∈ q.shared :=
  List.mem_of_mem_drop (List.mem_of_mem_take h)

/-- `InitParent` establishes the parent invariant. -/
theorem initParent_inv (g : SGraph) (source : Nat) (hs : source < g.numNodes) :
    ParentInv g.numNodes (initParent g source) := by
  unfold initParent ParentInv
  have hbase : ∀ x ∈ (List.range g.numNodes).map
      (fun u => if g.outDegree u ≠ 0 then -(g.outDegree u : Int) else -1), x < 0 := by
    intro x hx
    rcases List.mem_map.mp hx with ⟨u, _, hux⟩
    by_cases hdu : g.outDegree u ≠ 0
    · rw [if_pos hdu] at hux
      omega
    · rw [if_neg hdu] at hux
      omega
  rw [if_pos (by omega)]
  constructor
  · rw [List.length_set, List.length_map, List.length_range]
  · intro x hx hx0
    rcases List.mem_or_eq_of_mem_set hx with h | h
    · have := hbase x h
      omega
    · subst h
      exact_mod_cast hs

/-- `SHMEM_TDStep` preserves the parent and frontier invariants: every value
it writes into `parent` is a window vertex id and every id it buffers and
flushes is a neighbour. -/
theorem shmemTDStep_inv (g : SGraph) (localSize : Nat) (junkScout : Int)
    (parent : List Int) (q : SQueue)
    (hvout : ∀ u v, v ∈ g.outNeigh u → v < g.numNodes)
    (hp : ParentInv g.numNodes parent) (hq : FrontierInv g.numNodes q) :
    ParentInv g.numNodes (shmemTDStep g localSize junkScout parent q).1
    ∧ FrontierInv g.numNodes (shmemTDStep g localSize junkScout parent q).2.1 := by
  have hmain : ∀ st : TDState, (ParentInv g.numNodes st.parent
        ∧ FrontierInv g.numNodes st.q ∧ ∀ x ∈ st.buf, x < g.numNodes) →
      ∀ u, u < g.numNodes →
      (ParentInv g.numNodes (tdProcessVertex g localSize st u).parent
        ∧ FrontierInv g.numNodes (tdProcessVertex g localSize st u).q
        ∧ ∀ x ∈ (tdProcessVertex g localSize st u).buf, x < g.numNodes) := by
    intro st hst u hu
    unfold tdProcessVertex
    apply foldl_preserve
      (fun st2 : TDState => ParentInv g.numNodes st2.parent
        ∧ FrontierInv g.numNodes st2.q ∧ ∀ x ∈ st2.buf, x < g.numNodes) _ _ st hst
    intro st2 v hv ⟨hp2, hq2, hb2⟩
    dsimp only
    by_cases hcv : st2.parent.getD v 0 < 0
    · rw [if_pos hcv]
      refine ⟨⟨?_, ?_⟩, ?_, ?_⟩
      · rw [List.length_set]
        exact hp2.1
      · intro x hx hx0
        rcases List.mem_or_eq_of_mem_set hx with h | h
        · exact hp2.2 x h hx0
        · subst h
          exact_mod_cast hu
      · intro x hx
        unfold qbPush qbFlush at hx
        by_cases hfull : st2.buf.length = localSize
        · rw [if_pos hfull] at hx
          dsimp only at hx
          rcases List.mem_append.mp hx with h | h
          · exact hq2 x h
          · exact hb2 x h
        · rw [if_neg hfull] at hx
          exact hq2 x hx
      · intro x hx
        unfold qbPush qbFlush at hx
        have hvn : v < g.numNodes := hvout u v hv
        by_cases hfull : st2.buf.length = localSize
        · rw [if_pos hfull] at hx
          dsimp only at hx
          rcases List.mem_append.mp hx with h | h
          · simp at h
          · simp only [List.mem_singleton] at h
            omega
        · rw [if_neg hfull] at hx
          rcases List.mem_append.mp hx with h | h
          · exact hb2 x h
          · simp only [List.mem_singleton] at h
            omega
    · rw [if_neg hcv]
      exact ⟨hp2, hq2, hb2⟩
  unfold shmemTDStep
  dsimp only
  have hfold := foldl_preserve
    (fun st : TDState => ParentInv g.numNodes st.parent
      ∧ FrontierInv g.numNodes st.q ∧ ∀ x ∈ st.buf, x < g.numNodes)
    (tdProcessVertex g localSize) (sqWindow q)
    { parent := parent, q := q, buf := [], scout := junkScout }
    ⟨hp, hq, by simp⟩
    (fun st2 u hu hst2 => hmain st2 hst2 u (hq u (mem_shared_of_mem_window hu)))
  refine ⟨hfold.1, ?_⟩
  intro x hx
  unfold qbFlush at hx
  dsimp only at hx
  rcases List.mem_append.mp hx with h | h
  · exact hfold.2.1 x h
  · exact hfold.2.2 x h

/-- `BUStep` preserves the parent invariant: every value it writes is an
in-neighbour id. -/
theorem buStep_inv (g : SGraph) (parent : List Int) (front : List Bool)
    (hvin : ∀ u v, v ∈ g.inNeigh u → v < g.numNodes)
    (hp : ParentInv g.numNodes parent) :
    ParentInv g.numNodes (buStep g parent front).parent := by
  unfold buStep
  apply foldl_preserve (fun st : BUResult => ParentInv g.numNodes st.parent)
  · exact hp
  · intro st u hu hst
    dsimp only
    by_cases hcu : st.parent.getD u 0 < 0
    · rw [if_pos hcu]
      rcases hfind : (g.inNeigh u).find? (fun v => front.getD v false) with _ | v
      · exact hst
      · dsimp only
        refine ⟨?_, ?_⟩
        · rw [List.length_set]
          exact hst.1
        · intro x hx hx0
          rcases List.mem_or_eq_of_mem_set hx with h | h
          · exact hst.2 x h hx0
          · subst h
            have hv := List.find?_some hfind
            have hvmem := List.mem_of_find?_eq_some hfind
            have := hvin u v hvmem
            exact_mod_cast this
    · rw [if_neg hcu]
      exact hst

/-- The bottom-up do-while loop preserves the parent invariant. -/
theorem dobfsBULoop_inv (g : SGraph) (beta : Nat)
    (hvin : ∀ u v, v ∈ g.inNeigh u → v < g.numNodes) :
    ∀ (fuel : Nat) (parent : List Int) (front : List Bool) (awake : Nat) (out),
    dobfsBULoop g beta fuel parent front awake = some out →
    ParentInv g.numNodes parent → ParentInv g.numNodes out.1
  | 0, parent, front, awake, out, h, _ => by simp [dobfsBULoop] at h
  | fuel + 1, parent, front, awake, out, h, hp => by
    rw [dobfsBULoop] at h
    by_cases hcond : (buStep g parent front).awake ≥ awake
        ∨ (buStep g parent front).awake > g.numNodes / beta
    · rw [if_pos hcond] at h
      exact dobfsBULoop_inv g beta hvin fuel _ _ _ out h (buStep_inv g parent front hvin hp)
    · rw [if_neg hcond] at h
      have := buStep_inv g parent front hvin hp
      cases h
      exact this

/-- `BitmapToQueue` preserves the frontier invariant: only ids below
`num_nodes` are buffered. -/
theorem bitmapToQueue_inv (g : SGraph) (bm : List Bool) (q : SQueue) (localSize : Nat)
    (hq : FrontierInv g.numNodes q) :
    FrontierInv g.numNodes (bitmapToQueue g bm q localSize) := by
  unfold bitmapToQueue
  dsimp only
  have hfold := foldl_preserve
    (fun st : SQueue × List Nat => FrontierInv g.numNodes st.1 ∧ ∀ x ∈ st.2, x < g.numNodes)
    (fun st n => if bm.getD n false then qbPush st.1 st.2 localSize n else st)
    (List.range g.numNodes) (q, []) ⟨hq, by simp⟩ ?_
  · intro x hx
    unfold sqSlide qbFlush at hx
    dsimp only at hx
    rcases List.mem_append.mp hx with h | h
    · exact hfold.1 x h
    · exact hfold.2 x h
  · intro st n hn hst
    dsimp only
    have hnn : n < g.numNodes := List.mem_range.mp hn
    by_cases hbit : bm.getD n false
    · rw [if_pos hbit]
      unfold qbPush qbFlush
      by_cases hfull : st.2.length = localSize
      · rw [if_pos hfull]
        dsimp only
        refine ⟨?_, ?_⟩
        · intro x hx
          rcases List.mem_append.mp hx with h | h
          · exact hst.1 x h
          · exact hst.2 x h
        · intro x hx
          rcases List.mem_append.mp hx with h | h
          · simp at h
          · simp only [List.mem_singleton] at h
            omega
      · rw [if_neg hfull]
        refine ⟨hst.1, ?_⟩
        intro x hx
        rcases List.mem_append.mp hx with h | h
        · exact hst.2 x h
        · simp only [List.mem_singleton] at h
          omega
    · rw [if_neg hbit]
      exact hst

/-- The post-processing pass maps every entry into `{-1} ∪ [0, n)` when the
parent invariant holds. -/
theorem dobfsPostProcess_range (n : Nat) (p : List Int) (hp : ParentInv n p) :
    (dobfsPostProcess p).length = n
    ∧ ∀ x ∈ dobfsPostProcess p, x = -1 ∨ (0 ≤ x ∧ x < (n : Int)) := by
  unfold dobfsPostProcess
  constructor
  · rw [List.length_map]
    exact hp.1
  · intro x hx
    rcases List.mem_map.mp hx with ⟨y, hy, hyx⟩
    by_cases hlt : y < -1
    · rw [if_pos hlt] at hyx
      omega
    · rw [if_neg hlt] at hyx
      subst hyx
      by_cases hge : 0 ≤ y
      · exact Or.inr ⟨hge, hp.2 y hy hge⟩
      · omega

/-- The outer loop keeps the invariants and its result is the post-processed
parent array of an invariant-satisfying state. -/
theorem dobfsOuter_range (g : SGraph) (alpha : Int) (beta : Nat) (localSize : Nat)
    (junk : Nat → Int)
    (hvout : ∀ u v, v ∈ g.outNeigh u → v < g.numNodes)
    (hvin : ∀ u v, v ∈ g.inNeigh u → v < g.numNodes) :
    ∀ (fuel it : Nat) (st : DOBFSState) (out : List Int),
    dobfsOuter g alpha beta localSize junk fuel it st = some out →
    ParentInv g.numNodes st.parent → FrontierInv g.numNodes st.frontier →
    out.length = g.numNodes ∧ ∀ x ∈ out, x = -1 ∨ (0 ≤ x ∧ x < (g.numNodes : Int))
  | 0, it, st, out, h, _, _ => by simp [dobfsOuter] at h
  | fuel + 1, it, st, out, h, hp, hq => by
    rw [dobfsOuter] at h
    by_cases hempty : sqEmpty st.frontier
    · rw [if_pos hempty] at h
      cases h
      exact dobfsPostProcess_range g.numNodes st.parent hp
    · rw [if_neg hempty] at h
      by_cases hdir : st.scout > Int.tdiv st.edgesToCheck alpha
      · rw [if_pos hdir] at h
        dsimp only at h
        rcases hbu : dobfsBULoop g beta (fuel + 1) st.parent
            (queueToBitmap st.frontier st.front) (sqSize st.frontier) with _ | res
        · rw [hbu] at h
          simp at h
        · rw [hbu] at h
          dsimp only at h
          rcases res with ⟨parent2, front2, a2⟩
          have hp2 : ParentInv g.numNodes parent2 :=
            dobfsBULoop_inv g beta hvin (fuel + 1) _ _ _ _ hbu hp
          have hq2 : FrontierInv g.numNodes
              (bitmapToQueue g front2 (sqSlide st.frontier) localSize) :=
            bitmapToQueue_inv g front2 (sqSlide st.frontier) localSize hq
          exact dobfsOuter_range g alpha beta localSize junk hvout hvin fuel (it + 1)
            _ out h hp2 hq2
      · rw [if_neg hdir] at h
        have hinv := shmemTDStep_inv g localSize (junk it) st.parent st.frontier hvout hp hq
        exact dobfsOuter_range g alpha beta localSize junk hvout hvin fuel (it + 1)
          _ out h hinv.1 hinv.2

/-- C7: whenever `DOBFS` returns, the parent vector has one entry per node
and contains only values in `{-1} ∪ [0, num_nodes)`: the post-processing
pass resets every remaining `parent[n] < -1` to `-1`, and every non-negative
entry written by the top-down and bottom-up steps is a valid predecessor
id. -/
theorem dobfs_parent_range (g : SGraph) (source : Nat) (alpha : Int) (beta : Nat)
    (localSize : Nat) (junk : Nat → Int) (fuel : Nat) (out : List Int)
    (hvout : ∀ u v, v ∈ g.outNeigh u → v < g.numNodes)
    (hvin : ∀ u v, v ∈ g.inNeigh u → v < g.numNodes)
    (hsource : source < g.numNodes)
    (h : dobfs g source alpha beta localSize junk fuel = some out) :
    out.length = g.numNodes ∧ ∀ x ∈ out, x = -1 ∨ (0 ≤ x ∧ x < (g.numNodes : Int)) := by
  unfold dobfs at h
  apply dobfsOuter_range g alpha beta localSize junk hvout hvin fuel 0 _ out h
  · exact initParent_inv g source hsource
  · intro x hx
    unfold sqSlide sqPush at hx
    dsimp only at hx
    rcases List.mem_append.mp hx with h2 | h2
    · simp at h2
    · simp only [List.mem_singleton] at h2
      omega

/-- Bounded neighbour lists for the `getD`-style concrete graphs. -/
theorem getD_mem_bound (ls : List (List Nat)) (B : Nat)
    (h : ∀ l ∈ ls, ∀ x ∈ l, x < B) : ∀ u x, x ∈ ls.getD u [] → x < B := by
  intro u x hx
  by_cases hu : u < ls.length
  · rw [getD_of_lt _ _ _ hu] at hx
    exact h _ (List.get_mem ls u hu) x hx
  · rw [List.getD_eq_default _ _ (by omega)] at hx
    simp at hx

/-- Witness for `dobfs_parent_range`: the path `0 - 1 - 2` from source `0`
(uninitialized scout memory 0, fuel 10) returns `[0, 0, 1]`. -/
theorem dobfs_parent_range_witness :
    (dobfs pathGraph3 0 15 18 16384 (fun _ => 0) 10 = some [0, 0, 1])
    ∧ ([0, 0, 1] : List Int).length = pathGraph3.numNodes
    ∧ ∀ x ∈ ([0, 0, 1] : List Int), x = -1 ∨ (0 ≤ x ∧ x < (pathGraph3.numNodes : Int)) :=
  ⟨by decide,
   dobfs_parent_range pathGraph3 0 15 18 16384 (fun _ => 0) 10 [0, 0, 1]
     (fun u v hv => getD_mem_bound [[1], [0, 2], [1]] 3 (by decide) u v
       (by simpa [pathGraph3] using hv))
     (fun u v hv => getD_mem_bound [[1], [0, 2], [1]] 3 (by decide) u v
       (by simpa [pathGraph3] using hv))
     (by decide) (by decide)⟩

/-- The bottom-up do-while loop runs `BUStep` (with the bitmap swap) some
`k + 1` times, continuing exactly while
`awake_count >= old_awake_count || awake_count > num_nodes / beta`. -/
theorem dobfsBULoop_trace (g : SGraph) (beta : Nat) :
    ∀ (fuel : Nat) (p : List Int) (f : List Bool) (a : Nat)
      (out : List Int × List Bool × Nat),
    dobfsBULoop g beta fuel p f a = some out →
    ∃ k, k < fuel
      ∧ out = buIter g (k + 1) (p, f, a)
      ∧ (∀ i, i < k →
          (buIter g (i + 1) (p, f, a)).2.2 ≥ (buIter g i (p, f, a)).2.2
          ∨ (buIter g (i + 1) (p, f, a)).2.2 > g.numNodes / beta)
      ∧ ((buIter g (k + 1) (p, f, a)).2.2 < (buIter g k (p, f, a)).2.2
          ∧ (buIter g (k + 1) (p, f, a)).2.2 ≤ g.numNodes / beta)
  | 0, p, f, a, out, h => by simp [dobfsBULoop] at h
  | fuel + 1, p, f, a, out, h => by
    rw [dobfsBULoop] at h
    by_cases hcond : (buStep g p f).awake ≥ a ∨ (buStep g p f).awake > g.numNodes / beta
    · rw [if_pos hcond] at h
      rcases dobfsBULoop_trace g beta fuel (buStep g p f).parent (buStep g p f).next
          (buStep g p f).awake out h with ⟨k, hk, hout, htrace, hfin⟩
      refine ⟨k + 1, by omega, hout, ?_, hfin⟩
      intro i hi
      match i with
      | 0 => exact hcond
      | j + 1 => exact htrace j (by omega)
    · rw [if_neg hcond] at h
      cases h
      refine ⟨0, by omega, rfl, by omega, ?_⟩
      push_neg at hcond
      exact hcond

/-- C8: in the outer loop of `DOBFS`, when `scout_count >
edges_to_check / alpha` the kernel converts the queue to a bitmap and runs
bottom-up steps repeatedly, exiting the do-while exactly at the first step
whose `awake_count` is both below the previous `awake_count` and at most
`num_nodes / beta`; it then converts the bitmap back to a queue and
continues with `scout_count = 1` and `edges_to_check` unchanged.  Otherwise
it subtracts `scout_count` from `edges_to_check` and runs a top-down step,
sliding the window. -/
theorem dobfs_direction_switch (g : SGraph) (alpha : Int) (beta localSize : Nat)
    (junk : Nat → Int) (fuel it : Nat) (st : DOBFSState)
    (hne : sqEmpty st.frontier = false) :
    (st.scout > Int.tdiv st.edgesToCheck alpha →
      (dobfsBULoop g beta (fuel + 1) st.parent (queueToBitmap st.frontier st.front)
          (sqSize st.frontier) = none
        ∧ dobfsOuter g alpha beta localSize junk (fuel + 1) it st = none)
      ∨ (∃ k parent2 front2 a2,
          dobfsBULoop g beta (fuel + 1) st.parent (queueToBitmap st.frontier st.front)
              (sqSize st.frontier) = some (parent2, front2, a2)
          ∧ (parent2, front2, a2)
              = buIter g (k + 1)
                  (st.parent, queueToBitmap st.frontier st.front, sqSize st.frontier)
          ∧ (∀ i, i < k →
              ¬((buIter g (i + 1) (st.parent, queueToBitmap st.frontier st.front,
                      sqSize st.frontier)).2.2
                    < (buIter g i (st.parent, queueToBitmap st.frontier st.front,
                      sqSize st.frontier)).2.2
                  ∧ (buIter g (i + 1) (st.parent, queueToBitmap st.frontier st.front,
                      sqSize st.frontier)).2.2 ≤ g.numNodes / beta))
          ∧ (buIter g (k + 1) (st.parent, queueToBitmap st.frontier st.front,
                sqSize st.frontier)).2.2
              < (buIter g k (st.parent, queueToBitmap st.frontier st.front,
                sqSize st.frontier)).2.2
          ∧ (buIter g (k + 1) (st.parent, queueToBitmap st.frontier st.front,
                sqSize st.frontier)).2.2 ≤ g.numNodes / beta
          ∧ dobfsOuter g alpha beta localSize junk (fuel + 1) it st
              = dobfsOuter g alpha beta localSize junk fuel (it + 1)
                  { parent := parent2,
                    frontier := bitmapToQueue g front2 (sqSlide st.frontier) localSize,
                    front := front2, edgesToCheck := st.edgesToCheck, scout := 1 }))
    ∧ (¬(st.scout > Int.tdiv st.edgesToCheck alpha) →
        dobfsOuter g alpha beta localSize junk (fuel + 1) it st
          = dobfsOuter g alpha beta localSize junk fuel (it + 1)
              { parent := (shmemTDStep g localSize (junk it) st.parent st.frontier).1,
                frontier := sqSlide (shmemTDStep g localSize (junk it) st.parent st.frontier).2.1,
                front := st.front,
                edgesToCheck := st.edgesToCheck - st.scout,
                scout := (shmemTDStep g localSize (junk it) st.parent st.frontier).2.2 }) := by
  constructor
  · intro hdir
    rcases hbu : dobfsBULoop g beta (fuel + 1) st.parent
        (queueToBitmap st.frontier st.front) (sqSize st.frontier) with _ | res
    · left
      refine ⟨rfl, ?_⟩
      rw [dobfsOuter, if_neg (by simp [hne]), if_pos hdir]
      dsimp only
      rw [hbu]
    · rcases res with ⟨parent2, front2, a2⟩
      right
      rcases dobfsBULoop_trace g beta (fuel + 1) st.parent
          (queueToBitmap st.frontier st.front) (sqSize st.frontier) _ hbu
        with ⟨k, _, hout, htrace, hfin⟩
      refine ⟨k, parent2, front2, a2, rfl, hout, ?_, hfin.1, hfin.2, ?_⟩
      · intro i hi
        have := htrace i hi
        omega
      · rw [dobfsOuter, if_neg (by simp [hne]), if_pos hdir]
        dsimp only
        rw [hbu]
  · intro hdir
    rw [dobfsOuter, if_neg (by simp [hne]), if_neg hdir]

/-- Witness for `dobfs_direction_switch` at the concrete `K_3` state
`dobfsDemoState` (whose frontier window `[0]` is non-empty). -/
theorem dobfs_direction_switch_witness :
    sqEmpty dobfsDemoState.frontier = false
    ∧ ((dobfsDemoState.scout > Int.tdiv dobfsDemoState.edgesToCheck 15 →
      (dobfsBULoop triangleK3 18 (4 + 1) dobfsDemoState.parent
          (queueToBitmap dobfsDemoState.frontier dobfsDemoState.front)
          (sqSize dobfsDemoState.frontier) = none
        ∧ dobfsOuter triangleK3 15 18 16384 (fun _ => 0) (4 + 1) 0 dobfsDemoState = none)
      ∨ (∃ k parent2 front2 a2,
          dobfsBULoop triangleK3 18 (4 + 1) dobfsDemoState.parent
              (queueToBitmap dobfsDemoState.frontier dobfsDemoState.front)
              (sqSize dobfsDemoState.frontier) = some (parent2, front2, a2)
          ∧ (parent2, front2, a2)
              = buIter triangleK3 (k + 1)
                  (dobfsDemoState.parent,
                    queueToBitmap dobfsDemoState.frontier dobfsDemoState.front,
                    sqSize dobfsDemoState.frontier)
          ∧ (∀ i, i < k →
              ¬((buIter triangleK3 (i + 1) (dobfsDemoState.parent,
                      queueToBitmap dobfsDemoState.frontier dobfsDemoState.front,
                      sqSize dobfsDemoState.frontier)).2.2
                    < (buIter triangleK3 i (dobfsDemoState.parent,
                      queueToBitmap dobfsDemoState.frontier dobfsDemoState.front,
                      sqSize dobfsDemoState.frontier)).2.2
                  ∧ (buIter triangleK3 (i + 1) (dobfsDemoState.parent,
                      queueToBitmap dobfsDemoState.frontier dobfsDemoState.front,
                      sqSize dobfsDemoState.frontier)).2.2 ≤ triangleK3.numNodes / 18))
          ∧ (buIter triangleK3 (k + 1) (dobfsDemoState.parent,
                queueToBitmap dobfsDemoState.frontier dobfsDemoState.front,
                sqSize dobfsDemoState.frontier)).2.2
              < (buIter triangleK3 k (dobfsDemoState.parent,
                queueToBitmap dobfsDemoState.frontier dobfsDemoState.front,
                sqSize dobfsDemoState.frontier)).2.2
          ∧ (buIter triangleK3 (k + 1) (dobfsDemoState.parent,
                queueToBitmap dobfsDemoState.frontier dobfsDemoState.front,
                sqSize dobfsDemoState.frontier)).2.2 ≤ triangleK3.numNodes / 18
          ∧ dobfsOuter triangleK3 15 18 16384 (fun _ => 0) (4 + 1) 0 dobfsDemoState
              = dobfsOuter triangleK3 15 18 16384 (fun _ => 0) 4 (0 + 1)
                  { parent := parent2,
                    frontier := bitmapToQueue triangleK3 front2
                      (sqSlide dobfsDemoState.frontier) 16384,
                    front := front2, edgesToCheck := dobfsDemoState.edgesToCheck,
                    scout := 1 }))
    ∧ (¬(dobfsDemoState.scout > Int.tdiv dobfsDemoState.edgesToCheck 15) →
        dobfsOuter triangleK3 15 18 16384 (fun _ => 0) (4 + 1) 0 dobfsDemoState
          = dobfsOuter triangleK3 15 18 16384 (fun _ => 0) 4 (0 + 1)
              { parent := (shmemTDStep triangleK3 16384 ((fun (_ : Nat) => (0 : Int)) 0)
                  dobfsDemoState.parent dobfsDemoState.frontier).1,
                frontier := sqSlide (shmemTDStep triangleK3 16384
                  ((fun (_ : Nat) => (0 : Int)) 0)
                  dobfsDemoState.parent dobfsDemoState.frontier).2.1,
                front := dobfsDemoState.front,
                edgesToCheck := dobfsDemoState.edgesToCheck - dobfsDemoState.scout,
                scout := (shmemTDStep triangleK3 16384 ((fun (_ : Nat) => (0 : Int)) 0)
                  dobfsDemoState.parent dobfsDemoState.frontier).2.2 })) :=
  ⟨by decide,
   dobfs_direction_switch triangleK3 15 18 16384 (fun _ => 0) 4 0 dobfsDemoState (by decide)⟩

/-- Reading a just-set in-range slot. -/
theorem getD_set_self {α : Type} (l : List α) (i : Nat) (a d : α) (h : i < l.length) :
    (l.set i a).getD i d = a := by
  rw [List.getD_eq_getElem?_getD, List.getElem?_set_self h]
  rfl

/-- Reading another slot after a `set`. -/
theorem getD_set_ne {α : Type} (l : List α) (i j : Nat) (a d : α) (h : i ≠ j) :
    (l.set i a).getD j d = l.getD j d := by
  rw [List.getD_eq_getElem?_getD, List.getElem?_set_ne h, ← List.getD_eq_getElem?_getD]

/-- `getD` with the default beyond the length. -/
theorem getD_of_ge {α : Type} (l : List α) (i : Nat) (d : α) (h : l.length ≤ i) :
    l.getD i d = d := List.getD_eq_default l d h

/-- The resize step of `binsPush` does not change any `getD` read. -/
theorem binsPush_resize_getD (bins : List (List Nat)) (j j2 : Nat) :
    (if j < bins.length then bins
      else bins ++ List.replicate (j + 1 - bins.length) ([] : List Nat)).getD j2 []
    = bins.getD j2 [] := by
  by_cases h : j < bins.length
  · rw [if_pos h]
  · rw [if_neg h]
    by_cases h2 : j2 < bins.length
    · rw [List.getD_append _ _ _ _ h2]
    · rw [List.getD_append_right _ _ _ _ (by omega), getD_of_ge bins j2 [] (by omega)]
      rw [List.getD_eq_getElem?_getD, List.getElem?_replicate]
      by_cases h3 : j2 - bins.length < j + 1 - bins.length
      · rw [if_pos h3]
        rfl
      · rw [if_neg h3]
        rfl

/-- The target slot of `binsPush` gains exactly the pushed element. -/
theorem binsPush_getD_self (bins : List (List Nat)) (j : Nat) (v : Nat) :
    (binsPush bins j v).getD j [] = bins.getD j [] ++ [v] := by
  unfold binsPush
  have hlen : j < (if j < bins.length then bins
      else bins ++ List.replicate (j + 1 - bins.length) ([] : List Nat)).length := by
    by_cases h : j < bins.length
    · rw [if_pos h]
      exact h
    · rw [if_neg h, List.length_append, List.length_replicate]
      omega
  rw [getD_set_self _ _ _ _ hlen, binsPush_resize_getD]

/-- Other slots of `binsPush` are unchanged. -/
theorem binsPush_getD_ne (bins : List (List Nat)) (j j2 : Nat) (v : Nat) (h : j ≠ j2) :
    (binsPush bins j v).getD j2 [] = bins.getD j2 [] := by
  unfold binsPush
  rw [getD_set_ne _ _ _ _ _ h, binsPush_resize_getD]

/-- Case analysis for one edge relaxation: either the compare-and-swap path
is taken (and then the target is a real slot distinct from `u`), or the
state is unchanged. -/
theorem relaxEdge_cases (delta u : Nat) (st : DSState) (vw : Nat × Nat) :
    (st.dist.getD u 0 + vw.2 < st.dist.getD vw.1 0
      ∧ vw.1 < st.dist.length
      ∧ u ≠ vw.1
      ∧ relaxEdge delta u st vw
          = { st with
              dist := st.dist.set vw.1 (st.dist.getD u 0 + vw.2)
              bins := binsPush st.bins ((st.dist.getD u 0 + vw.2) / delta) vw.1 })
    ∨ (¬(st.dist.getD u 0 + vw.2 < st.dist.getD vw.1 0) ∧ relaxEdge delta u st vw = st) := by
  by_cases hw : st.dist.getD u 0 + vw.2 < st.dist.getD vw.1 0
  · left
    have hvlt : vw.1 < st.dist.length := by
      by_contra hge
      rw [getD_of_ge st.dist vw.1 0 (by omega)] at hw
      omega
    have hune : u ≠ vw.1 := by
      intro he
      rw [← he] at hw
      omega
    refine ⟨hw, hvlt, hune, ?_⟩
    unfold relaxEdge
    rw [if_pos hw]
  · right
    refine ⟨hw, ?_⟩
    unfold relaxEdge
    rw [if_neg hw]

/-- The full behaviour of the `RelaxEdges` fold over an edge list `l` of
vertex `u`: frame, monotonicity, `dist[u]` constant, every decrease is along
an edge of `l` and re-binned consistently, bins only grow by targets of `l`,
bins below `dist[u]/delta` are untouched, all edges of `l` end up relaxed,
and the fold is a no-op when they already were. -/
theorem relaxFold_spec (delta : Nat) (hdelta : 0 < delta) (u : Nat) :
    ∀ (l : List (Nat × Nat)) (st : DSState),
    ((l.foldl (relaxEdge delta u) st).frontier = st.frontier
      ∧ (l.foldl (relaxEdge delta u) st).idx = st.idx
      ∧ (l.foldl (relaxEdge delta u) st).tails = st.tails
      ∧ (l.foldl (relaxEdge delta u) st).iter = st.iter
      ∧ (l.foldl (relaxEdge delta u) st).dist.length = st.dist.length)
    ∧ (∀ x, (l.foldl (relaxEdge delta u) st).dist.getD x 0 ≤ st.dist.getD x 0)
    ∧ (l.foldl (relaxEdge delta u) st).dist.getD u 0 = st.dist.getD u 0
    ∧ (∀ x, (l.foldl (relaxEdge delta u) st).dist.getD x 0 < st.dist.getD x 0 →
        (∃ w, (x, w) ∈ l
          ∧ (l.foldl (relaxEdge delta u) st).dist.getD x 0 = st.dist.getD u 0 + w)
        ∧ InBins delta (l.foldl (relaxEdge delta u) st).bins
            (l.foldl (relaxEdge delta u) st).dist x)
    ∧ (∀ j, ∃ extra, (l.foldl (relaxEdge delta u) st).bins.getD j []
          = st.bins.getD j [] ++ extra
          ∧ ∀ x ∈ extra, (∃ w, (x, w) ∈ l)
              ∧ x < st.dist.length ∧ delta * j < st.dist.getD x 0)
    ∧ (∀ B, delta * B ≤ st.dist.getD u 0 →
        ∀ j, j < B → (l.foldl (relaxEdge delta u) st).bins.getD j [] = st.bins.getD j [])
    ∧ (∀ vw ∈ l,
        (l.foldl (relaxEdge delta u) st).dist.getD vw.1 0 ≤ st.dist.getD u 0 + vw.2)
    ∧ ((∀ vw ∈ l, st.dist.getD vw.1 0 ≤ st.dist.getD u 0 + vw.2) →
        l.foldl (relaxEdge delta u) st = st)
  | [], st => by
    refine ⟨⟨rfl, rfl, rfl, rfl, rfl⟩, fun x => le_refl _, rfl, ?_, ?_, ?_, ?_, ?_⟩
    · intro x hx
      simp only [List.foldl_nil] at hx
      omega
    · intro j
      exact ⟨[], by simp, by simp⟩

    · intro B _ j _
      rfl
    · intro vw hvw
      simp at hvw
    · intro _
      rfl
  | vw :: rest, st => by
    simp only [List.foldl_cons]
    rcases relaxFold_spec delta hdelta u rest (relaxEdge delta u st vw) with
      ⟨⟨ihf1, ihf2, ihf3, ihf4, ihf5⟩, ihB, ihC, ihD, ihE, ihF, ihG, ihH⟩
    rcases relaxEdge_cases delta u st vw with
      ⟨hw, hvlt, hune, heq⟩ | ⟨hw, heq⟩
    · -- the compare-and-swap wrote dist[vw.1] = dist[u] + vw.2
      have hd1 : (relaxEdge delta u st vw).dist
          = st.dist.set vw.1 (st.dist.getD u 0 + vw.2) := by rw [heq]
      have hb1 : (relaxEdge delta u st vw).bins
          = binsPush st.bins ((st.dist.getD u 0 + vw.2) / delta) vw.1 := by rw [heq]
      have hfr1 : (relaxEdge delta u st vw).frontier = st.frontier := by rw [heq]
      have hix1 : (relaxEdge delta u st vw).idx = st.idx := by rw [heq]
      have htl1 : (relaxEdge delta u st vw).tails = st.tails := by rw [heq]
      have hit1 : (relaxEdge delta u st vw).iter = st.iter := by rw [heq]
      have hdu1 : (relaxEdge delta u st vw).dist.getD u 0 = st.dist.getD u 0 := by
        rw [hd1, getD_set_ne _ _ _ _ _ (Ne.symm hune)]
      have hdtarget : (relaxEdge delta u st vw).dist.getD vw.1 0
          = st.dist.getD u 0 + vw.2 := by
        rw [hd1, getD_set_self _ _ _ _ hvlt]
      have hdother : ∀ x, x ≠ vw.1 →
          (relaxEdge delta u st vw).dist.getD x 0 = st.dist.getD x 0 := by
        intro x hx
        rw [hd1, getD_set_ne _ _ _ _ _ (fun he => hx he.symm)]
      have hdle : ∀ x, (relaxEdge delta u st vw).dist.getD x 0 ≤ st.dist.getD x 0 := by
        intro x
        by_cases hx : x = vw.1
        · subst hx
          rw [hdtarget]
          omega
        · rw [hdother x hx]
      have hdlen : (relaxEdge delta u st vw).dist.length = st.dist.length := by
        rw [hd1, List.length_set]
      refine ⟨⟨by rw [ihf1, hfr1], by rw [ihf2, hix1], by rw [ihf3, htl1],
        by rw [ihf4, hit1], by rw [ihf5, hdlen]⟩, ?_, ?_, ?_, ?_, ?_, ?_, ?_⟩
      · intro x
        exact le_trans (ihB x) (hdle x)
      · rw [ihC, hdu1]
      · -- decreases
        intro x hx
        by_cases hx2 : (rest.foldl (relaxEdge delta u) (relaxEdge delta u st vw)).dist.getD x 0
            < (relaxEdge delta u st vw).dist.getD x 0
        · rcases ihD x hx2 with ⟨⟨w, hwmem, hwval⟩, hbins⟩
          exact ⟨⟨w, by simp [hwmem], by rw [hwval, hdu1]⟩, hbins⟩
        · have hxeq : (rest.foldl (relaxEdge delta u) (relaxEdge delta u st vw)).dist.getD x 0
              = (relaxEdge delta u st vw).dist.getD x 0 := by
            have := ihB x
            omega
          have hxt : x = vw.1 := by
            by_contra hxne
            rw [hxeq, hdother x hxne] at hx
            omega
          subst hxt
          constructor
          · refine ⟨vw.2, by simp, ?_⟩
            rw [hxeq, hdtarget]
          · -- x sits in the bin it was pushed into, and its dist is unchanged since
            refine ⟨(st.dist.getD u 0 + vw.2) / delta, ?_, ?_⟩
            · rcases ihE ((st.dist.getD u 0 + vw.2) / delta) with ⟨extra, hex, _⟩
              rw [hex, hb1, binsPush_getD_self]
              simp
            · rw [hxeq, hdtarget]
              calc delta * ((st.dist.getD u 0 + vw.2) / delta)
                  = ((st.dist.getD u 0 + vw.2) / delta) * delta := Nat.mul_comm _ _
                _ ≤ st.dist.getD u 0 + vw.2 := Nat.div_mul_le_self _ _
      · -- bins grow
        intro j
        rcases ihE j with ⟨e2, he2, he2mem⟩
        by_cases hj : j = (st.dist.getD u 0 + vw.2) / delta
        · subst hj
          refine ⟨[vw.1] ++ e2, ?_, ?_⟩
          · rw [he2, hb1, binsPush_getD_self, List.append_assoc]
          · intro x hxm
            rcases List.mem_append.mp hxm with h | h
            · simp only [List.mem_singleton] at h
              subst h
              refine ⟨⟨vw.2, by simp⟩, hvlt, ?_⟩
              calc delta * ((st.dist.getD u 0 + vw.2) / delta)
                  = ((st.dist.getD u 0 + vw.2) / delta) * delta := Nat.mul_comm _ _
                _ ≤ st.dist.getD u 0 + vw.2 := Nat.div_mul_le_self _ _
                _ < st.dist.getD vw.1 0 := hw
            · rcases he2mem x h with ⟨⟨w, hwm⟩, hxlt, hxval⟩
              refine ⟨⟨w, by simp [hwm]⟩, by rwa [hdlen] at hxlt, ?_⟩
              calc delta * ((st.dist.getD u 0 + vw.2) / delta)
                  < (relaxEdge delta u st vw).dist.getD x 0 := hxval
                _ ≤ st.dist.getD x 0 := hdle x
        · refine ⟨e2, ?_, ?_⟩
          · rw [he2, hb1, binsPush_getD_ne _ _ _ _ (fun he => hj he.symm)]
          · intro x hxm
            rcases he2mem x hxm with ⟨⟨w, hwm⟩, hxlt, hxval⟩
            refine ⟨⟨w, by simp [hwm]⟩, by rwa [hdlen] at hxlt, ?_⟩
            calc delta * j < (relaxEdge delta u st vw).dist.getD x 0 := hxval
              _ ≤ st.dist.getD x 0 := hdle x
      · -- low bins untouched
        intro B hB j hj
        have hbin : B ≤ (st.dist.getD u 0 + vw.2) / delta := by
          rw [Nat.le_div_iff_mul_le hdelta]
          have h1 : delta * B ≤ st.dist.getD u 0 + vw.2 := by omega
          have h2 : B * delta = delta * B := Nat.mul_comm B delta
          omega
        have := ihF B (by rw [hdu1]; exact hB) j hj
        rw [this, hb1, binsPush_getD_ne _ _ _ _ (by omega)]
      · -- all edges relaxed
        intro vw2 hvw2
        rcases List.mem_cons.mp hvw2 with h | h
        · calc (rest.foldl (relaxEdge delta u) (relaxEdge delta u st vw)).dist.getD vw2.1 0
              ≤ (relaxEdge delta u st vw).dist.getD vw2.1 0 := ihB vw2.1
            _ = st.dist.getD u 0 + vw2.2 := by rw [h]; exact hdtarget
        · have := ihG vw2 h
          rw [hdu1] at this
          exact this
      · -- no-op case cannot apply: the head edge did write
        intro hall
        have := hall vw (by simp)
        omega
    · -- the head edge was a no-op
      rw [heq] at ihf1 ihf2 ihf3 ihf4 ihf5 ihB ihC ihD ihE ihF ihG ihH ⊢
      refine ⟨⟨ihf1, ihf2, ihf3, ihf4, ihf5⟩, ihB, ihC, ?_, ?_, ihF, ?_, ?_⟩
      · intro x hx
        rcases ihD x hx with ⟨⟨w, hwmem, hwval⟩, hbins⟩
        exact ⟨⟨w, by simp [hwmem], hwval⟩, hbins⟩
      · intro j
        rcases ihE j with ⟨extra, hex, hexmem⟩
        refine ⟨extra, hex, ?_⟩
        intro x hxm
        rcases hexmem x hxm with ⟨⟨w, hwm⟩, hxlt, hxval⟩
        exact ⟨⟨w, by simp [hwm]⟩, hxlt, hxval⟩
      · intro vw2 hvw2
        rcases List.mem_cons.mp hvw2 with h | h
        · subst h
          have := ihB vw2.1
          omega
        · exact ihG vw2 h
      · intro hall
        exact ihH (fun vw2 h2 => hall vw2 (by simp [h2]))

/-- Length of the bin array after a push: resized to `j + 1` if needed. -/
theorem binsPush_length (bins : List (List Nat)) (j v : Nat) :
    (binsPush bins j v).length = max bins.length (j + 1) := by
  simp only [binsPush]
  by_cases h : j < bins.length
  · rw [if_pos h, List.length_set]
    omega
  · rw [if_neg h, List.length_set, List.length_append, List.length_replicate]
    omega

/-- When all finite distances are bounded by `kDistInf`, the `RelaxEdges`
fold keeps the bin count at most `kDistInf`. -/
theorem relaxFold_binsLen (delta : Nat) (u : Nat) :
    ∀ (l : List (Nat × Nat)) (st : DSState),
    (∀ x, x < st.dist.length → st.dist.getD x 0 ≤ kDistInf) →
    st.bins.length ≤ kDistInf →
    (l.foldl (relaxEdge delta u) st).bins.length ≤ kDistInf
  | [], _ => fun _ hb => hb
  | vw :: rest, st => by
    intro hd hb
    simp only [List.foldl_cons]
    rcases relaxEdge_cases delta u st vw with ⟨hw, hvlt, hune, heq⟩ | ⟨_, heq⟩
    · have htb : st.dist.getD vw.1 0 ≤ kDistInf := hd vw.1 hvlt
      apply relaxFold_binsLen delta u rest
      · intro x hx
        rw [heq] at hx ⊢
        simp only [List.length_set] at hx
        by_cases hxv : x = vw.1
        · subst hxv
          rw [getD_set_self _ _ _ _ hx]
          omega
        · rw [getD_set_ne _ _ _ _ _ (fun he => hxv he.symm)]
          exact hd x hx
      · rw [heq]
        simp only
        rw [binsPush_length]
        have hj : (st.dist.getD u 0 + vw.2) / delta ≤ st.dist.getD u 0 + vw.2 :=
          Nat.div_le_self _ _
        omega
    · rw [heq]
      exact relaxFold_binsLen delta u rest st hd hb

/-- Removing the head of the pending list preserves coverage, provided the
head vertex has all of its edges relaxed. -/
theorem covered_tail (g : WSGraph) (delta : Nat) (dist : List Nat)
    (bins : List (List Nat)) (u : Nat) (rest : List Nat) (C x : Nat)
    (hc : Covered g delta dist bins (u :: rest) C x)
    (hx : x = u → EdgesOK g dist x) :
    Covered g delta dist bins rest C x := by
  rcases hc with h | h | ⟨hmem, hb⟩
  · exact Or.inl h
  · exact Or.inr (Or.inl h)
  · rcases List.mem_cons.mp hmem with he | hm
    · exact Or.inl (hx he)
    · exact Or.inr (Or.inr ⟨hm, hb⟩)

/-- A covered vertex whose distance is below `delta * C` must already have
all edges relaxed: the pending bound fails and all bins it could occupy are
below `C`, hence empty. -/
theorem covered_low (g : WSGraph) (delta : Nat) (dist : List Nat)
    (bins : List (List Nat)) (pending : List Nat) (C x : Nat)
    (hblow : ∀ j, j < C → bins.getD j [] = [])
    (hlow : dist.getD x 0 < delta * C)
    (hc : Covered g delta dist bins pending C x) :
    EdgesOK g dist x := by
  rcases hc with h | ⟨j, hj, hjb⟩ | ⟨_, hb⟩
  · exact h
  · have hjC : j < C := by
      by_contra hge
      have : delta * C ≤ delta * j := Nat.mul_le_mul_left delta (by omega)
      omega
    rw [hblow j hjC] at hj
    simp at hj
  · omega

/-- One `RelaxEdges` call on a vertex `u` that passes the
`dist[u] >= delta * curr_bin` test preserves the frame, the distance core,
the bin bounds and coverage, and leaves all of `u`'s edges relaxed. -/
theorem relaxEdges_preserves (g : WSGraph) (source delta : Nat) (hdelta : 0 < delta)
    (u : Nat) (hun : u < g.numNodes) (C : Nat) (pending : List Nat)
    (st : DSState)
    (hcore : DistCore g source st.dist)
    (hlen : st.bins.length ≤ kDistInf)
    (hbv : ∀ j, ∀ x ∈ st.bins.getD j [], x < g.numNodes)
    (hblow : ∀ j, j < C → st.bins.getD j [] = [])
    (hcov : ∀ x, x < g.numNodes → st.dist.getD x 0 < kDistInf →
        Covered g delta st.dist st.bins pending C x)
    (hu : delta * C ≤ st.dist.getD u 0) :
    ((relaxEdges g delta u st).frontier = st.frontier
      ∧ (relaxEdges g delta u st).idx = st.idx
      ∧ (relaxEdges g delta u st).tails = st.tails
      ∧ (relaxEdges g delta u st).iter = st.iter)
    ∧ MidInv g source delta C pending (relaxEdges g delta u st)
    ∧ EdgesOK g (relaxEdges g delta u st).dist u := by
  rcases hcore with ⟨hclen, hcsrc, hcbound, hcpath⟩
  rcases relaxFold_spec delta hdelta u (g.outNeighW u) st with
    ⟨⟨hf1, hf2, hf3, hf4, hf5⟩, hB, hC, hD, hE, hF, hG, _⟩
  have hfold : relaxEdges g delta u st
      = (g.outNeighW u).foldl (relaxEdge delta u) st := rfl
  rw [← hfold] at hf1 hf2 hf3 hf4 hf5 hB hC hD hE hF hG
  refine ⟨⟨hf1, hf2, hf3, hf4⟩, ⟨⟨?_, ?_, ?_, ?_⟩, ?_, ?_, ?_, ?_⟩, ?_⟩
  · rw [hf5, hclen]
  · have := hB source
    omega
  · intro v hv
    exact le_trans (hB v) (hcbound v hv)
  · -- path realizability
    intro v hv hvfin
    by_cases heq : (relaxEdges g delta u st).dist.getD v 0 = st.dist.getD v 0
    · rw [heq]
      rw [heq] at hvfin
      exact hcpath v hv hvfin
    · have hlt : (relaxEdges g delta u st).dist.getD v 0 < st.dist.getD v 0 := by
        have := hB v
        omega
      rcases hD v hlt with ⟨⟨w, hwm, hwval⟩, _⟩
      rw [hwval]
      have hufin : st.dist.getD u 0 < kDistInf := by
        rw [hwval] at hvfin
        omega
      exact IsPath.step u v w (st.dist.getD u 0) (hcpath u hun hufin) hwm
  · -- bins length
    rw [hfold]
    apply relaxFold_binsLen delta u _ st _ hlen
    intro x hx
    rw [hclen] at hx
    exact hcbound x hx
  · -- bin entries in range
    intro j x hx
    rcases hE j with ⟨extra, hex, hmem⟩
    rw [hex] at hx
    rcases List.mem_append.mp hx with h | h
    · exact hbv j x h
    · rcases hmem x h with ⟨_, hxlt, _⟩
      rw [hclen] at hxlt
      exact hxlt
  · -- bins below C empty
    intro j hj
    rw [hF C hu j hj]
    exact hblow j hj
  · -- coverage
    intro x hx hxfin
    by_cases heq : (relaxEdges g delta u st).dist.getD x 0 = st.dist.getD x 0
    · have hxfin0 : st.dist.getD x 0 < kDistInf := by omega
      rcases hcov x hx hxfin0 with h | ⟨j, hj, hjb⟩ | ⟨hmem, hb⟩
      · -- edges stay relaxed after monotone decreases with dist[x] fixed
        left
        intro vw hvw
        calc (relaxEdges g delta u st).dist.getD vw.1 0
            ≤ st.dist.getD vw.1 0 := hB vw.1
          _ ≤ st.dist.getD x 0 + vw.2 := h vw hvw
          _ = (relaxEdges g delta u st).dist.getD x 0 + vw.2 := by rw [heq]
      · right; left
        rcases hE j with ⟨extra, hex, _⟩
        exact ⟨j, by rw [hex]; exact List.mem_append_left _ hj, by rw [heq]; exact hjb⟩
      · right; right
        exact ⟨hmem, by rw [heq]; exact hb⟩
    · have hlt : (relaxEdges g delta u st).dist.getD x 0 < st.dist.getD x 0 := by
        have := hB x
        omega
      rcases hD x hlt with ⟨_, hbins⟩
      exact Or.inr (Or.inl hbins)
  · -- all of u's edges relaxed
    intro vw hvw
    rw [hC]
    exact hG vw hvw

/-- Phase 1 over an arbitrary work list: processing every pending vertex
(relaxing those passing the `dist[u] >= delta * curr_bin` test) preserves
the frame and turns the mid-iteration invariant into its empty-pending
form. -/
theorem phase1Fold_inv (g : WSGraph) (source delta C : Nat) (hdelta : 0 < delta) :
    ∀ (work : List Nat) (st : DSState),
    (∀ x ∈ work, x < g.numNodes) →
    MidInv g source delta C work st →
    ((work.foldl (fun (s : DSState) u =>
          if s.dist.getD u 0 ≥ delta * C then relaxEdges g delta u s else s) st).frontier
        = st.frontier
      ∧ (work.foldl (fun (s : DSState) u =>
          if s.dist.getD u 0 ≥ delta * C then relaxEdges g delta u s else s) st).idx
        = st.idx
      ∧ (work.foldl (fun (s : DSState) u =>
          if s.dist.getD u 0 ≥ delta * C then relaxEdges g delta u s else s) st).tails
        = st.tails
      ∧ (work.foldl (fun (s : DSState) u =>
          if s.dist.getD u 0 ≥ delta * C then relaxEdges g delta u s else s) st).iter
        = st.iter)
    ∧ MidInv g source delta C []
        (work.foldl (fun (s : DSState) u =>
          if s.dist.getD u 0 ≥ delta * C then relaxEdges g delta u s else s) st)
  | [], st => fun _ hinv => ⟨⟨rfl, rfl, rfl, rfl⟩, hinv⟩
  | u :: rest, st => by
    intro hwork hinv
    rcases hinv with ⟨hcore, hlen, hbv, hblow, hcov⟩
    have hun : u < g.numNodes := hwork u (by simp)
    have hwrest : ∀ x ∈ rest, x < g.numNodes := fun x hx => hwork x (by simp [hx])
    simp only [List.foldl_cons]
    by_cases hg : delta * C ≤ st.dist.getD u 0
    · rw [if_pos hg]
      obtain ⟨⟨hfr, hix, htl, hit⟩, ⟨hcore1, hlen1, hbv1, hblow1, hcov1⟩, hok⟩ :=
        relaxEdges_preserves g source delta hdelta u hun C (u :: rest) st
          hcore hlen hbv hblow hcov hg
      have hcov1r : ∀ x, x < g.numNodes →
          (relaxEdges g delta u st).dist.getD x 0 < kDistInf →
          Covered g delta (relaxEdges g delta u st).dist
            (relaxEdges g delta u st).bins rest C x := by
        intro x hx hxf
        refine covered_tail g delta _ _ u rest C x (hcov1 x hx hxf) ?_
        intro he
        rw [he]
        exact hok
      obtain ⟨⟨f1, f2, f3, f4⟩, hmid2⟩ :=
        phase1Fold_inv g source delta C hdelta rest (relaxEdges g delta u st)
          hwrest ⟨hcore1, hlen1, hbv1, hblow1, hcov1r⟩
      exact ⟨⟨f1.trans hfr, f2.trans hix, f3.trans htl, f4.trans hit⟩, hmid2⟩
    · rw [if_neg hg]
      have hcovr : ∀ x, x < g.numNodes → st.dist.getD x 0 < kDistInf →
          Covered g delta st.dist st.bins rest C x := by
        intro x hx hxf
        refine covered_tail g delta _ _ u rest C x (hcov x hx hxf) ?_
        intro he
        refine covered_low g delta st.dist st.bins (u :: rest) C x hblow ?_
          (hcov x hx hxf)
        rw [he]
        omega
      exact phase1Fold_inv g source delta C hdelta rest st hwrest
        ⟨hcore, hlen, hbv, hblow, hcovr⟩

/-- A bucket-fusion drain over an arbitrary work list: unconditionally
relaxing every pending vertex preserves the frame and yields the
empty-pending mid-iteration invariant (vertices whose distance dropped
below the current bin boundary are provably no-ops). -/
theorem fusionFold_inv (g : WSGraph) (source delta C : Nat) (hdelta : 0 < delta)
    (hvalid : ∀ x, x < g.numNodes → ∀ vw ∈ g.outNeighW x, vw.1 < g.numNodes) :
    ∀ (work : List Nat) (st : DSState),
    (∀ x ∈ work, x < g.numNodes) →
    MidInv g source delta C work st →
    ((work.foldl (fun (s : DSState) u => relaxEdges g delta u s) st).frontier
        = st.frontier
      ∧ (work.foldl (fun (s : DSState) u => relaxEdges g delta u s) st).idx = st.idx
      ∧ (work.foldl (fun (s : DSState) u => relaxEdges g delta u s) st).tails = st.tails
      ∧ (work.foldl (fun (s : DSState) u => relaxEdges g delta u s) st).iter = st.iter)
    ∧ MidInv g source delta C []
        (work.foldl (fun (s : DSState) u => relaxEdges g delta u s) st)
  | [], st => fun _ hinv => ⟨⟨rfl, rfl, rfl, rfl⟩, hinv⟩
  | u :: rest, st => by
    intro hwork hinv
    rcases hinv with ⟨hcore, hlen, hbv, hblow, hcov⟩
    have hun : u < g.numNodes := hwork u (by simp)
    have hwrest : ∀ x ∈ rest, x < g.numNodes := fun x hx => hwork x (by simp [hx])
    simp only [List.foldl_cons]
    by_cases hg : delta * C ≤ st.dist.getD u 0
    · obtain ⟨⟨hfr, hix, htl, hit⟩, ⟨hcore1, hlen1, hbv1, hblow1, hcov1⟩, hok⟩ :=
        relaxEdges_preserves g source delta hdelta u hun C (u :: rest) st
          hcore hlen hbv hblow hcov hg
      have hcov1r : ∀ x, x < g.numNodes →
          (relaxEdges g delta u st).dist.getD x 0 < kDistInf →
          Covered g delta (relaxEdges g delta u st).dist
            (relaxEdges g delta u st).bins rest C x := by
        intro x hx hxf
        refine covered_tail g delta _ _ u rest C x (hcov1 x hx hxf) ?_
        intro he
        rw [he]
        exact hok
      obtain ⟨⟨f1, f2, f3, f4⟩, hmid2⟩ :=
        fusionFold_inv g source delta C hdelta hvalid rest (relaxEdges g delta u st)
          hwrest ⟨hcore1, hlen1, hbv1, hblow1, hcov1r⟩
      exact ⟨⟨f1.trans hfr, f2.trans hix, f3.trans htl, f4.trans hit⟩, hmid2⟩
    · have hok : EdgesOK g st.dist u := by
        by_cases hf : st.dist.getD u 0 < kDistInf
        · exact covered_low g delta st.dist st.bins (u :: rest) C u hblow (by omega)
            (hcov u hun hf)
        · intro vw hvw
          have h1 : st.dist.getD vw.1 0 ≤ kDistInf :=
            hcore.2.2.1 vw.1 (hvalid u hun vw hvw)
          have h2 : st.dist.getD u 0 ≤ kDistInf := hcore.2.2.1 u hun
          omega
      have hnoop : relaxEdges g delta u st = st := by
        rcases relaxFold_spec delta hdelta u (g.outNeighW u) st with
          ⟨_, _, _, _, _, _, _, hH⟩
        exact hH hok
      rw [hnoop]
      have hcovr : ∀ x, x < g.numNodes → st.dist.getD x 0 < kDistInf →
          Covered g delta st.dist st.bins rest C x := by
        intro x hx hxf
        refine covered_tail g delta _ _ u rest C x (hcov x hx hxf) ?_
        intro he
        rw [he]
        exact hok
      exact fusionFold_inv g source delta C hdelta hvalid rest st hwrest
        ⟨hcore, hlen, hbv, hblow, hcovr⟩

/-- The bucket-fusion loop preserves the frame and the empty-pending
mid-iteration invariant whenever it returns. -/
theorem fusionLoop_inv (g : WSGraph) (source delta C : Nat) (hdelta : 0 < delta)
    (hvalid : ∀ x, x < g.numNodes → ∀ vw ∈ g.outNeighW x, vw.1 < g.numNodes) :
    ∀ (fuel : Nat) (st st2 : DSState),
    fusionLoop g delta C fuel st = some st2 →
    MidInv g source delta C [] st →
    (st2.frontier = st.frontier ∧ st2.idx = st.idx ∧ st2.tails = st.tails
      ∧ st2.iter = st.iter)
    ∧ MidInv g source delta C [] st2
  | 0, st, st2 => by
    intro h
    simp [fusionLoop] at h
  | fuel + 1, st, st2 => by
    intro h hinv
    rcases hinv with ⟨hcore, hlen, hbv, hblow, hcov⟩
    simp only [fusionLoop] at h
    by_cases hc : C < st.bins.length ∧ st.bins.getD C [] ≠ []
        ∧ (st.bins.getD C []).length < kBinSizeThreshold
    · rw [if_pos hc] at h
      have hmidc : MidInv g source delta C (st.bins.getD C [])
          { st with bins := st.bins.set C [] } := by
        refine ⟨hcore, ?_, ?_, ?_, ?_⟩
        · simpa only [List.length_set] using hlen
        · intro j x hx
          by_cases hjC : j = C
          · subst hjC
            rw [getD_set_self _ _ _ _ hc.1] at hx
            simp at hx
          · rw [getD_set_ne _ _ _ _ _ (fun he => hjC he.symm)] at hx
            exact hbv j x hx
        · intro j hj
          rw [getD_set_ne _ _ _ _ _ (by omega)]
          exact hblow j hj
        · intro x hx hxf
          rcases hcov x hx hxf with hok | ⟨j, hj, hjb⟩ | ⟨hmem, _⟩
          · exact Or.inl hok
          · by_cases hjC : j = C
            · subst hjC
              exact Or.inr (Or.inr ⟨hj, hjb⟩)
            · refine Or.inr (Or.inl ⟨j, ?_, hjb⟩)
              rw [getD_set_ne _ _ _ _ _ (fun he => hjC he.symm)]
              exact hj
          · simp at hmem
      obtain ⟨⟨f1, f2, f3, f4⟩, hmid3⟩ :=
        fusionFold_inv g source delta C hdelta hvalid (st.bins.getD C [])
          { st with bins := st.bins.set C [] } (hbv C) hmidc
      obtain ⟨⟨g1, g2, g3, g4⟩, hmid2⟩ :=
        fusionLoop_inv g source delta C hdelta hvalid fuel _ st2 h hmid3
      exact ⟨⟨g1.trans f1, g2.trans f2, g3.trans f3, g4.trans f4⟩, hmid2⟩
    · rw [if_neg hc] at h
      have he : st = st2 := Option.some.inj h
      subst he
      exact ⟨⟨rfl, rfl, rfl, rfl⟩, hcore, hlen, hbv, hblow, hcov⟩

/-- `find?` on a unit-step range returns the first index satisfying the
predicate. -/
theorem find_range_spec {p : Nat → Bool} :
    ∀ (k s i : Nat), (List.range' s k).find? p = some i →
    p i = true ∧ s ≤ i ∧ i < s + k ∧ ∀ j, s ≤ j → j < i → p j = false
  | 0, s, i => by
    intro h
    simp [List.range'] at h
  | k + 1, s, i => by
    intro h
    rw [List.range'_succ] at h
    by_cases hs : p s
    · rw [List.find?_cons_of_pos _ hs] at h
      have he : s = i := Option.some.inj h
      subst he
      exact ⟨hs, le_refl s, by omega, fun j h1 h2 => absurd h1 (by omega)⟩
    · rw [List.find?_cons_of_neg _ hs] at h
      obtain ⟨hp, hle, hlt, hmin⟩ := find_range_spec k (s + 1) i h
      refine ⟨hp, by omega, by omega, ?_⟩
      intro j h1 h2
      by_cases hj : j = s
      · subst hj
        simpa using hs
      · exact hmin j (by omega) h2

/-- When the vote over at most `kDistInf` bins starting from the unwritten
`next_bin_index = kMaxBin` still returns `kMaxBin`, every bin at or above
the current one is empty. -/
theorem voteBin_max (bins : List (List Nat)) (C : Nat)
    (hlen : bins.length ≤ kDistInf)
    (h : voteBin bins C kMaxBin = kMaxBin) :
    ∀ j, C ≤ j → bins.getD j [] = [] := by
  intro j hj
  unfold voteBin at h
  cases hf : (List.range' C (bins.length - C)).find?
      (fun i => !(bins.getD i []).isEmpty) with
  | none =>
    have hall := List.find?_eq_none.mp hf
    by_cases hjl : j < bins.length
    · have hjm : j ∈ List.range' C (bins.length - C) :=
        List.mem_range'_1.mpr ⟨hj, by omega⟩
      have := hall j hjm
      simpa using this
    · exact getD_of_ge bins j [] (by omega)
  | some i =>
    rw [hf] at h
    have h2 : min kMaxBin i = kMaxBin := h
    obtain ⟨_, _, hlt, _⟩ := find_range_spec _ _ _ hf
    have hik : i < kMaxBin := by
      have hk : kDistInf < kMaxBin := by decide
      omega
    omega

/-- When the vote returns an index other than `kMaxBin`, that index is the
first non-empty bin at or past the current one. -/
theorem voteBin_some (bins : List (List Nat)) (C B : Nat)
    (hlen : bins.length ≤ kDistInf)
    (h : voteBin bins C kMaxBin = B) (hB : B ≠ kMaxBin) :
    C ≤ B ∧ B < bins.length ∧ bins.getD B [] ≠ []
    ∧ ∀ j, C ≤ j → j < B → bins.getD j [] = [] := by
  unfold voteBin at h
  cases hf : (List.range' C (bins.length - C)).find?
      (fun i => !(bins.getD i []).isEmpty) with
  | none =>
    rw [hf] at h
    have h2 : kMaxBin = B := h
    exact absurd h2.symm hB
  | some i =>
    rw [hf] at h
    have h2 : min kMaxBin i = B := h
    obtain ⟨hp, hle, hlt, hmin⟩ := find_range_spec _ _ _ hf
    have hik : i < kMaxBin := by
      have hk : kDistInf < kMaxBin := by decide
      omega
    have hBi : B = i := by omega
    subst hBi
    refine ⟨hle, by omega, ?_, ?_⟩
    · simpa using hp
    · intro j h1 h2
      have := hmin j h1 h2
      simpa using this

/-- The end of an outer iteration (vote, reset of the current slot, optional
distribution of the voted bin into the frontier, iteration bump) restores
the outer-loop invariant from the empty-pending mid-iteration invariant. -/
theorem iterEnd_inv (g : WSGraph) (source delta : Nat) (st : DSState)
    (hidx : st.idx.length = 2) (htl : st.tails.length = 2)
    (hnext : dsNextIdx st = kMaxBin) (hntail : dsNextTail st = 0)
    (hmid : MidInv g source delta (dsC st) [] st) :
    DSInv g source delta (deltaStepIterEnd st) := by
  rcases hmid with ⟨hcore, hlen, hbv, hblow, hcov⟩
  simp only [dsC] at hblow hcov
  have hnx : st.idx.getD ((st.iter + 1) % 2) 0 = kMaxBin := hnext
  have hnt : st.tails.getD ((st.iter + 1) % 2) 0 = 0 := hntail
  have hkk : kDistInf < kMaxBin := by decide
  have hpq : st.iter % 2 ≠ (st.iter + 1) % 2 := by omega
  have hqq : (st.iter + 1 + 1) % 2 = st.iter % 2 := by omega
  have hp2 : st.iter % 2 < 2 := by omega
  have hq2 : (st.iter + 1) % 2 < 2 := by omega
  by_cases hvote : voteBin st.bins (st.idx.getD (st.iter % 2) 0) kMaxBin = kMaxBin
  · -- the vote found no bin: the next iteration exits
    have hempty : ∀ j, st.bins.getD j [] = [] := by
      intro j
      by_cases hj : st.idx.getD (st.iter % 2) 0 ≤ j
      · exact voteBin_max _ _ hlen hvote j hj
      · exact hblow j (by omega)
    have hst : deltaStepIterEnd st
        = { st with
            idx := (st.idx.set ((st.iter + 1) % 2) kMaxBin).set (st.iter % 2) kMaxBin
            tails := st.tails.set (st.iter % 2) 0
            iter := st.iter + 1 } := by
      simp only [deltaStepIterEnd]
      rw [hnx, hvote, if_neg (by omega)]
    rw [hst]
    unfold DSInv
    simp only [dsC, dsTail, dsNextIdx, dsNextTail]
    have hC2 : ((st.idx.set ((st.iter + 1) % 2) kMaxBin).set (st.iter % 2)
        kMaxBin).getD ((st.iter + 1) % 2) 0 = kMaxBin := by
      rw [getD_set_ne _ _ _ _ _ hpq]
      exact getD_set_self _ _ _ _ (by rw [hidx]; exact hq2)
    refine ⟨hcore, ?_, ?_, ?_, ?_, ?_, ?_, hbv, hlen, ?_⟩
    · simp [List.length_set, hidx]
    · simp [List.length_set, htl]
    · rw [hqq]
      exact getD_set_self _ _ _ _ (by rw [List.length_set, hidx]; exact hp2)
    · rw [hqq]
      exact getD_set_self _ _ _ _ (by rw [htl]; exact hp2)
    · rw [getD_set_ne _ _ _ _ _ hpq, hnt]
      exact Nat.zero_le _
    · intro x hx
      rw [getD_set_ne _ _ _ _ _ hpq, hnt] at hx
      simp at hx
    · rw [if_pos hC2]
      refine ⟨hempty, ?_⟩
      intro u hu hf
      rcases hcov u hu hf with hok | ⟨j, hj, _⟩ | hm
      · exact hok
      · rw [hempty j] at hj
        simp at hj
      · simp at hm
  · -- the vote found bin V: distribute it into the frontier
    obtain ⟨hCB, hBlt, hBne, hBmin⟩ :=
      voteBin_some st.bins (st.idx.getD (st.iter % 2) 0)
        (voteBin st.bins (st.idx.getD (st.iter % 2) 0) kMaxBin) hlen rfl hvote
    set V := voteBin st.bins (st.idx.getD (st.iter % 2) 0) kMaxBin with hV
    have hst : deltaStepIterEnd st
        = { dist := st.dist
            bins := st.bins.set V []
            frontier := st.bins.getD V [] ++ st.frontier.drop (st.bins.getD V []).length
            idx := (st.idx.set ((st.iter + 1) % 2) V).set (st.iter % 2) kMaxBin
            tails := (st.tails.set (st.iter % 2) 0).set ((st.iter + 1) % 2)
              (st.bins.getD V []).length
            iter := st.iter + 1 } := by
      simp only [deltaStepIterEnd]
      rw [hnx, ← hV, if_pos hBlt]
      rw [getD_set_ne _ _ _ _ _ hpq, hnt]
      simp only [writeRange, List.take_zero, List.nil_append, Nat.zero_add]
    rw [hst]
    unfold DSInv
    simp only [dsC, dsTail, dsNextIdx, dsNextTail]
    have hdt : ((st.tails.set (st.iter % 2) 0).set ((st.iter + 1) % 2)
        (st.bins.getD V []).length).getD ((st.iter + 1) % 2) 0
        = (st.bins.getD V []).length :=
      getD_set_self _ _ _ _ (by rw [List.length_set, htl]; exact hq2)
    have hC2 : ((st.idx.set ((st.iter + 1) % 2) V).set (st.iter % 2)
        kMaxBin).getD ((st.iter + 1) % 2) 0 = V := by
      rw [getD_set_ne _ _ _ _ _ hpq]
      exact getD_set_self _ _ _ _ (by rw [hidx]; exact hq2)
    refine ⟨hcore, ?_, ?_, ?_, ?_, ?_, ?_, ?_, ?_, ?_⟩
    · simp [List.length_set, hidx]
    · simp [List.length_set, htl]
    · rw [hqq]
      exact getD_set_self _ _ _ _ (by rw [List.length_set, hidx]; exact hp2)
    · rw [hqq]
      rw [getD_set_ne _ _ _ _ _ (Ne.symm hpq)]
      exact getD_set_self _ _ _ _ (by rw [htl]; exact hp2)
    · rw [hdt, List.length_append]
      exact Nat.le_add_right _ _
    · intro x hx
      rw [hdt, List.take_left] at hx
      exact hbv V x hx
    · intro j x hx
      by_cases hjV : j = V
      · subst hjV
        rw [getD_set_self _ _ _ _ hBlt] at hx
        simp at hx
      · rw [getD_set_ne _ _ _ _ _ (fun he => hjV he.symm)] at hx
        exact hbv j x hx
    · simpa only [List.length_set] using hlen
    · rw [hC2, if_neg hvote]
      constructor
      · intro j hj
        rw [getD_set_ne _ _ _ _ _ (by omega)]
        by_cases hjC : j < st.idx.getD (st.iter % 2) 0
        · exact hblow j hjC
        · exact hBmin j (by omega) hj
      · intro x hx hxf
        rw [hdt, List.take_left]
        rcases hcov x hx hxf with hok | ⟨j, hj, hjb⟩ | hm
        · exact Or.inl hok
        · by_cases hjV : j = V
          · subst hjV
            exact Or.inr (Or.inr ⟨hj, hjb⟩)
          · refine Or.inr (Or.inl ⟨j, ?_, hjb⟩)
            rw [getD_set_ne _ _ _ _ _ (fun he => hjV he.symm)]
            exact hj
        · simp at hm

/-- The starting state of `Shmem_DeltaStep` satisfies the outer-loop
invariant. -/
theorem deltaStep_init_inv (g : WSGraph) (source delta : Nat)
    (hs : source < g.numNodes) :
    DSInv g source delta
      { dist := (List.replicate g.numNodes kDistInf).set source 0, bins := [],
        frontier := [source], idx := [0, kMaxBin], tails := [1, 0], iter := 0 } := by
  have hrl : (List.replicate g.numNodes kDistInf).length = g.numNodes :=
    List.length_replicate _ _
  have hget : ∀ v, v < g.numNodes → v ≠ source →
      ((List.replicate g.numNodes kDistInf).set source 0).getD v 0 = kDistInf := by
    intro v hv hvs
    rw [getD_set_ne _ _ _ _ _ (fun he => hvs he.symm)]
    simp [List.getD_eq_getElem?_getD, List.getElem?_replicate, hv]
  have hsrc : ((List.replicate g.numNodes kDistInf).set source 0).getD source 0 = 0 :=
    getD_set_self _ _ _ _ (by rw [hrl]; exact hs)
  unfold DSInv
  simp only [dsC, dsTail, dsNextIdx, dsNextTail]
  refine ⟨⟨by rw [List.length_set, hrl], hsrc, ?_, ?_⟩, rfl, rfl, rfl, rfl,
    Nat.le_refl 1, ?_, ?_, by decide, ?_⟩
  · intro v hv
    by_cases hvs : v = source
    · subst hvs
      rw [hsrc]
      exact Nat.zero_le _
    · rw [hget v hv hvs]
  · intro v hv hf
    by_cases hvs : v = source
    · subst hvs
      rw [hsrc]
      exact IsPath.refl
    · rw [hget v hv hvs] at hf
      omega
  · intro x hx
    have ht : List.getD [1, 0] (0 % 2) 0 = 1 := rfl
    rw [ht] at hx
    have : x = source := by simpa using hx
    omega
  · intro j x hx
    simp at hx
  · rw [if_neg (by decide)]
    constructor
    · intro j _
      exact getD_of_ge _ _ _ (Nat.zero_le j)
    · intro x hx hxf
      by_cases hxs : x = source
      · subst hxs
        refine Or.inr (Or.inr ⟨?_, ?_⟩)
        · have ht : List.getD [1, 0] (0 % 2) 0 = 1 := rfl
          rw [ht]
          simp
        · have hc0 : List.getD [0, kMaxBin] (0 % 2) 0 = 0 := rfl
          rw [hc0]
          simp
      · rw [hget x hx hxs] at hxf
        omega

/-- Whenever the outer loop of `Shmem_DeltaStep` terminates from an
invariant state, the returned distances keep the core properties and have
every edge out of a finite-distance vertex relaxed. -/
theorem deltaStepLoop_inv (g : WSGraph) (source delta : Nat) (hdelta : 0 < delta)
    (hvalid : ∀ x, x < g.numNodes → ∀ vw ∈ g.outNeighW x, vw.1 < g.numNodes) :
    ∀ (fuel : Nat) (st : DSState) (dist : List Nat),
    deltaStepLoop g delta fuel st = some dist →
    DSInv g source delta st →
    DistCore g source dist
    ∧ (∀ u, u < g.numNodes → dist.getD u 0 < kDistInf → EdgesOK g dist u)
  | 0, st, dist => by
    intro h
    simp [deltaStepLoop] at h
  | fuel + 1, st, dist => by
    intro h hinv
    obtain ⟨hcore, hidx, htl, hnext, hntail, htail, hwin, hbv, hblen, hif⟩ := hinv
    simp only [dsC, dsTail, dsNextIdx, dsNextTail] at hnext hntail htail hwin hif
    simp only [deltaStepLoop] at h
    by_cases hC : st.idx.getD (st.iter % 2) 0 ≠ kMaxBin
    · rw [if_pos hC] at h
      rw [if_neg hC] at hif
      obtain ⟨hblow, hcov⟩ := hif
      have hph : dsPhase1 g delta st
          = (st.frontier.take (st.tails.getD (st.iter % 2) 0)).foldl
            (fun (s : DSState) u =>
              if s.dist.getD u 0 ≥ delta * (st.idx.getD (st.iter % 2) 0) then
                relaxEdges g delta u s
              else s) st := rfl
      obtain ⟨⟨p1, p2, p3, p4⟩, hmid1⟩ :=
        phase1Fold_inv g source delta (st.idx.getD (st.iter % 2) 0) hdelta
          (st.frontier.take (st.tails.getD (st.iter % 2) 0)) st hwin
          ⟨hcore, hblen, hbv, hblow, hcov⟩
      rw [← hph] at p1 p2 p3 p4 hmid1
      cases hfus : fusionLoop g delta (st.idx.getD (st.iter % 2) 0) (fuel + 1)
          (dsPhase1 g delta st) with
      | none =>
        rw [hfus] at h
        have h2 : (none : Option (List Nat)) = some dist := h
        exact Option.noConfusion h2
      | some st2 =>
        rw [hfus] at h
        have h2 : deltaStepLoop g delta fuel (deltaStepIterEnd st2) = some dist := h
        obtain ⟨⟨f1, f2, f3, f4⟩, hmid2⟩ :=
          fusionLoop_inv g source delta (st.idx.getD (st.iter % 2) 0) hdelta hvalid
            (fuel + 1) (dsPhase1 g delta st) st2 hfus hmid1
        have hix2 : st2.idx = st.idx := f2.trans p2
        have htl2 : st2.tails = st.tails := f3.trans p3
        have hit2 : st2.iter = st.iter := f4.trans p4
        refine deltaStepLoop_inv g source delta hdelta hvalid fuel
          (deltaStepIterEnd st2) dist h2 ?_
        refine iterEnd_inv g source delta st2 (by rw [hix2]; exact hidx)
          (by rw [htl2]; exact htl) ?_ ?_ ?_
        · simp only [dsNextIdx]
          rw [hix2, hit2]
          exact hnext
        · simp only [dsNextTail]
          rw [htl2, hit2]
          exact hntail
        · have hc2 : dsC st2 = st.idx.getD (st.iter % 2) 0 := by
            simp only [dsC]
            rw [hix2, hit2]
          rw [hc2]
          exact hmid2
    · rw [if_neg hC] at h
      rw [if_pos (not_not.mp hC)] at hif
      have he : st.dist = dist := Option.some.inj h
      subst he
      exact ⟨hcore, hif.2⟩

/-- C3: at `npes = 1`, for every weighted graph (edge weights are naturals,
hence non-negative) whose edges stay inside the vertex range and every
in-range source, whenever `Shmem_DeltaStep` returns, the resulting `dist`
satisfies `dist[source] = 0`; for every edge `(u, v, w)` with
`dist[u] < kDistInf`, `dist[v] ≤ dist[u] + w`; and every `v` with
`dist[v] < kDistInf` has a source-to-`v` path of total weight exactly
`dist[v]`. -/
theorem deltaStep_correct (g : WSGraph) (source delta fuel : Nat) (dist : List Nat)
    (hdelta : 0 < delta) (hs : source < g.numNodes)
    (hvalid : ∀ x, x < g.numNodes → ∀ vw ∈ g.outNeighW x, vw.1 < g.numNodes)
    (h : shmemDeltaStep g source delta fuel = some dist) :
    dist.getD source 0 = 0
    ∧ (∀ u, u < g.numNodes → ∀ vw ∈ g.outNeighW u, dist.getD u 0 < kDistInf →
        dist.getD vw.1 0 ≤ dist.getD u 0 + vw.2)
    ∧ (∀ v, v < g.numNodes → dist.getD v 0 < kDistInf →
        IsPath g source v (dist.getD v 0)) := by
  simp only [shmemDeltaStep] at h
  rw [if_pos hs] at h
  obtain ⟨hcore, hedges⟩ := deltaStepLoop_inv g source delta hdelta hvalid fuel _ dist h
    (deltaStep_init_inv g source delta hs)
  refine ⟨hcore.2.1, ?_, hcore.2.2.2⟩
  intro u hu vw hvw huf
  exact hedges u hu huf vw hvw

/-- C3 (witness): on the weighted diamond with `delta = 2` the kernel
returns `[0, 1, 3, 4]`, which satisfies all three output properties. -/
theorem deltaStep_correct_witness :
    ([0, 1, 3, 4] : List Nat).getD 0 0 = 0
    ∧ (∀ u, u < diamondW.numNodes → ∀ vw ∈ diamondW.outNeighW u,
        ([0, 1, 3, 4] : List Nat).getD u 0 < kDistInf →
        ([0, 1, 3, 4] : List Nat).getD vw.1 0
          ≤ ([0, 1, 3, 4] : List Nat).getD u 0 + vw.2)
    ∧ (∀ v, v < diamondW.numNodes → ([0, 1, 3, 4] : List Nat).getD v 0 < kDistInf →
        IsPath diamondW 0 v (([0, 1, 3, 4] : List Nat).getD v 0)) :=
  deltaStep_correct diamondW 0 2 20 [0, 1, 3, 4] (by decide) (by decide) (by decide)
    (by decide)
